import Mathlib

/-!
Verification of the packrat-parsing core (`src/packrat-parsing/index.js`).

The source file contains two parser-combinator implementations:
* a left-recursion-capable matcher (first half of the file), modelled here by
  `Packrat.evalL` / `Packrat.matchL` over states `StL` whose memo entries are
  `LREntry` records (mirroring the JS objects `\x7bcst, nextPos\x7d` and the
  left-recursion failer `\x7bcst: null, nextPos: -1, used: false\x7d`);
* a plain packrat matcher (second half), modelled by `Packrat.evalP` /
  `Packrat.matchP` over states whose memo entries are `PEntry`.

JavaScript's `null` result is `Option.none`; a thrown `TypeError` from looking
up an undefined rule is `Outcome.err`; since the JS evaluators can diverge
(e.g. left recursion without memoization, repetition of an empty terminal),
the model is fuel-indexed and `Outcome.timeout` marks fuel exhaustion, which
is an artifact of the shallow embedding, not a behaviour of the code.

Mutation of the shared memo objects in the JS code is modelled by updates to
the functional memo table: the aliasing of `lrFailer` and `result` with the
table slot at `(origPos, name)` is sound because no nested evaluation ever
overwrites that slot (a nested application of the same rule at the same
position always takes the memo-hit path).
-/

namespace Packrat

/-- Grammar expressions: the closed set of node variants of the source
(`Terminal`, `RuleApplication`, `Choice`, `Sequence`, `Not`, `Repetition`). -/
inductive Exp where
  | terminal : List Char → Exp
  | ruleApplication : String → Exp
  | choice : List Exp → Exp
  | sequence : List Exp → Exp
  | not : Exp → Exp
  | repetition : Exp → Exp
deriving Repr

/-- Concrete syntax trees: a terminal yields its literal, sequences and
repetitions yield lists, and `Not` yields the JS value `true`. -/
inductive CST where
  | str : List Char → CST
  | list : List CST → CST
  | tru : CST
deriving Repr

/-- Grammar: the JS `rules` object, an association of rule names to bodies. -/
abbrev Grammar := List (String × Exp)

/-- Parse state, polymorphic in the type of memo-table entries so the two
matcher versions can share the expression-evaluation helpers.  The cursor is
an `Int` because the left-recursion failer's `nextPos` is `-1` and consuming
it really sets `pos` to `-1` in the JS code. -/
structure St (ε : Type) where
  input : List Char
  pos : Int
  memo : Int → String → Option ε

/-- Memo entry of the left-recursion-capable matcher.  `isFailer` records
whether the JS object carries a `used` field (i.e. was created by
`memoizeLRFailerAtCurrPos`). -/
structure LREntry where
  cst : Option CST
  nextPos : Int
  isFailer : Bool
  used : Bool

/-- Memo entry of the plain packrat matcher: `memoizeResult` stores
`\x7bcst, nextPos\x7d` on success and `\x7bcst: null\x7d` on failure. -/
inductive PEntry where
  | succ : CST → Int → PEntry
  | fail : PEntry

abbrev StL := St LREntry
abbrev StP := St PEntry

/-- Result of an evaluation step: a returned value (`cst` or `null`) with the
final matcher state, a thrown error, or fuel exhaustion. -/
inductive Outcome (σ : Type) where
  | ok : Option CST → σ → Outcome σ
  | err : Outcome σ
  | timeout : Outcome σ

/-- The returned value of an evaluation, when it returned. -/
def Outcome.val? : Outcome σ → Option (Option CST)
  | .ok v _ => some v
  | _ => none

/-- The final state of an evaluation, when it returned (default otherwise). -/
def Outcome.stOr (d : σ) : Outcome σ → σ
  | .ok _ s => s
  | _ => d

/-- The final cursor position of an evaluation, when it returned. -/
def Outcome.pos? : Outcome (St ε) → Option Int
  | .ok _ s => some s.pos
  | _ => none

/-- Store an entry at `(p, nm)` in a memo table. -/
def setMemo (m : Int → String → Option ε) (p : Int) (nm : String) (e : ε) :
    Int → String → Option ε :=
  fun q nm' => if q = p ∧ nm' = nm then some e else m q nm'

/-- `input[i]` in JS: `none` (undefined) when `i` is out of range. -/
def charAt (input : List Char) (i : Int) : Option Char :=
  if h : 0 ≤ i ∧ i.toNat < input.length then some (input.get ⟨i.toNat, h.2⟩)
  else none

/-- The loop of `Terminal.eval`: consume the literal one symbol at a time;
on the first mismatch stop, leaving the cursor where it stopped. -/
def terminalLoop : List Char → St ε → Bool × St ε
  | [], s => (true, s)
  | c :: cs, s =>
    if charAt s.input s.pos = some c then
      terminalLoop cs { s with pos := s.pos + 1 }
    else (false, s)

/-- `Terminal.eval`: run the literal-consuming loop; on success return the
literal as the CST, otherwise return failure, in both cases from the state
the loop stopped in. -/
def terminalEval (cs : List Char) (s : St ε) : Outcome (St ε) :=
  match terminalLoop cs s with
  | (true, s') => .ok (some (.str cs)) s'
  | (false, s') => .ok none s'

/-- The result transformation of `Not.eval` (each evaluator's `not` case is
`notEval s.pos` applied to the inner result): invert the inner outcome,
restoring the cursor to `p` on inner failure only. -/
def notEval (p : Int) : Outcome (St ε) → Outcome (St ε)
  | .ok none s' => .ok (some .tru) { s' with pos := p }
  | .ok (some _) s' => .ok none s'
  | r => r

/-- The loop of `Choice.eval`: reset the cursor to `orig` before each
alternative; return the first success; after the last failure return the
failure as is (the cursor is not restored by `Choice` itself). -/
def choiceStep (ev : Exp → St ε → Outcome (St ε)) :
    List Exp → Int → St ε → Outcome (St ε)
  | [], _, s => .ok none s
  | e :: es, orig, s =>
    match ev e { s with pos := orig } with
    | .ok none s' => choiceStep ev es orig s'
    | r => r

/-- Whether an expression node is syntactically a `Not` node
(the `exp instanceof Not` test of `Sequence.eval`). -/
def Exp.isNot : Exp → Bool
  | .not _ => true
  | _ => false

/-- The loop of `Sequence.eval`: evaluate the items in order, aborting on the
first failure; collect results except those of `Not` items. -/
def seqStep (ev : Exp → St ε → Outcome (St ε)) :
    List Exp → St ε → List CST → Outcome (St ε)
  | [], s, acc => .ok (some (.list acc.reverse)) s
  | e :: es, s, acc =>
    match ev e s with
    | .ok none s' => .ok none s'
    | .ok (some c) s' => seqStep ev es s' (if e.isNot then acc else c :: acc)
    | r => r

/-- The loop of `Repetition.eval`: attempt the element repeatedly, saving the
cursor before each attempt; on the first failing attempt restore the cursor to
that attempt's saved position and return the collected successes.  The fuel
bounds the number of iterations. -/
def repStep (ev : Exp → St ε → Outcome (St ε)) :
    Nat → Exp → St ε → List CST → Outcome (St ε)
  | 0, _, _, _ => .timeout
  | k + 1, e, s, acc =>
    match ev e s with
    | .ok none s' => .ok (some (.list acc.reverse)) { s' with pos := s.pos }
    | .ok (some c) s' => repStep ev k e s' (c :: acc)
    | r => r

/-- The state at the top of each seed-growing iteration: the best result so
far is written to the memo slot at `(origPos, name)` (lines
`result.cst = cst; result.nextPos = matcher.pos`) and the cursor is reset to
`origPos`. -/
def growReset (s : StL) (name : String) (origPos : Int) (cst : Option CST) : StL :=
  { s with pos := origPos
         , memo := setMemo s.memo origPos name ⟨cst, s.pos, false, false⟩ }

/-- The seed-growing `do/while` loop of the left-recursion-capable
`RuleApplication.eval`: record the current best, reset the cursor, re-evaluate
the rule body; continue while the new attempt succeeds and advances the cursor
strictly past the recorded best; on exit set the cursor to the best result's
`nextPos` and return the best `cst`. -/
def growStep (ev : Exp → StL → Outcome StL) :
    Nat → String → Exp → Int → Option CST → StL → Outcome StL
  | 0, _, _, _, _, _ => .timeout
  | k + 1, name, body, origPos, cst, s =>
    match ev body (growReset s name origPos cst) with
    | .ok cst2 s2 =>
      if cst2.isSome ∧ s.pos < s2.pos then
        growStep ev k name body origPos cst2 s2
      else
        .ok cst { s2 with pos := s.pos }
    | r => r

/-- The left-recursion failer object `\x7bcst: null, nextPos: -1, used: false\x7d`. -/
def lrFailer : LREntry := ⟨none, -1, true, false⟩

/-- Whether the memo slot at `(p, nm)` holds a left-recursion failer whose
`used` flag was set (the `lrFailer.used` test of `RuleApplication.eval`). -/
def usedFlag (m : Int → String → Option LREntry) (p : Int) (nm : String) : Bool :=
  match m p nm with
  | some e2 => e2.isFailer && e2.used
  | none => false

/-- `RuleApplication.eval` of the left-recursion-capable matcher: on a memo
hit, `useMemoizedResult` sets the cursor to the entry's `nextPos` (for the
failer, `-1`), flags a failer as used, and returns the cached `cst`;
otherwise install the failer, evaluate the rule body (`ev`), record the
result at the original position, and if the failer was used during the body's
evaluation run the seed-growing loop (`k` bounds its modelled iterations). -/
def ruleStepL (g : Grammar) (ev : Exp → StL → Outcome StL) (k : Nat)
    (name : String) (s : StL) : Outcome StL :=
  match s.memo s.pos name with
  | some entry =>
    .ok entry.cst
      { s with pos := entry.nextPos
             , memo :=
                 if entry.isFailer then
                   setMemo s.memo s.pos name { entry with used := true }
                 else s.memo }
  | none =>
    let origPos := s.pos
    let s1 : StL := { s with memo := setMemo s.memo origPos name lrFailer }
    match List.lookup name g with
    | none => .err
    | some body =>
      match ev body s1 with
      | .ok cst s2 =>
        let s3 : StL :=
          { s2 with memo := setMemo s2.memo origPos name ⟨cst, s2.pos, false, false⟩ }
        if usedFlag s2.memo origPos name then growStep ev k name body origPos cst s3
        else .ok cst s3
      | r => r

/-- Evaluation in the left-recursion-capable matcher (first version in the
source file). -/
def evalL (g : Grammar) : Nat → Exp → StL → Outcome StL
  | 0, _, _ => .timeout
  | n + 1, e, s =>
    match e with
    | .terminal cs => terminalEval cs s
    | .choice es => choiceStep (evalL g n) es s.pos s
    | .sequence es => seqStep (evalL g n) es s []
    | .not e1 => notEval s.pos (evalL g n e1 s)
    | .repetition e1 => repStep (evalL g n) (n + 1) e1 s []
    | .ruleApplication name => ruleStepL g (evalL g n) (n + 1) name s

/-- The memo entry the plain matcher's `memoizeResult` records for outcome
`cst` ending at position `q`: `\x7bcst, nextPos\x7d` on success, `\x7bcst: null\x7d`
on failure. -/
def pentryOf (cst : Option CST) (q : Int) : PEntry :=
  match cst with
  | some c => .succ c q
  | none => .fail

/-- `RuleApplication.eval` of the plain packrat matcher: memo hits return the
cached success (advancing the cursor) or the cached failure (cursor
unchanged); otherwise the rule body is evaluated and the outcome memoized at
the original position. -/
def ruleStepP (g : Grammar) (ev : Exp → StP → Outcome StP) (name : String)
    (s : StP) : Outcome StP :=
  match s.memo s.pos name with
  | some (.succ c q) => .ok (some c) { s with pos := q }
  | some .fail => .ok none s
  | none =>
    let origPos := s.pos
    match List.lookup name g with
    | none => .err
    | some body =>
      match ev body s with
      | .ok cst s2 =>
        .ok cst { s2 with memo := setMemo s2.memo origPos name (pentryOf cst s2.pos) }
      | r => r

/-- Evaluation in the plain packrat matcher (second version in the source
file). -/
def evalP (g : Grammar) : Nat → Exp → StP → Outcome StP
  | 0, _, _ => .timeout
  | n + 1, e, s =>
    match e with
    | .terminal cs => terminalEval cs s
    | .choice es => choiceStep (evalP g n) es s.pos s
    | .sequence es => seqStep (evalP g n) es s []
    | .not e1 => notEval s.pos (evalP g n e1 s)
    | .repetition e1 => repStep (evalP g n) (n + 1) e1 s []
    | .ruleApplication name => ruleStepP g (evalP g n) name s

/-- Fresh parse state: cursor at `0`, empty memo table. -/
def initSt (input : List Char) : St ε := ⟨input, 0, fun _ _ => none⟩

/-- `Matcher.match` of the left-recursion-capable matcher: evaluate the rule
named `start` on a fresh state and succeed only when the whole input was
consumed. -/
def matchL (g : Grammar) (n : Nat) (input : List Char) : Outcome Unit :=
  match evalL g n (.ruleApplication "start") (initSt input) with
  | .ok cst s => .ok (if s.pos = (input.length : Int) then cst else none) ()
  | .err => .err
  | .timeout => .timeout

/-- `Matcher.match` of the plain packrat matcher. -/
def matchP (g : Grammar) (n : Nat) (input : List Char) : Outcome Unit :=
  match evalP g n (.ruleApplication "start") (initSt input) with
  | .ok cst s => .ok (if s.pos = (input.length : Int) then cst else none) ()
  | .err => .err
  | .timeout => .timeout

/-- The defining expression of the left-recursive rule `mulExp` of the
example grammar in the source file's comment. -/
def mulBody : Exp :=
  .choice
    [ .sequence [ .ruleApplication "mulExp", .terminal ['+']
                , .ruleApplication "priExp" ]
    , .ruleApplication "priExp" ]

/-- The example grammar from the source file's comment:
`start = mulExp`, `mulExp = mulExp "+" priExp | priExp`,
`priExp = "pi" | "x"`. -/
def gMul : Grammar :=
  [ ("start", .ruleApplication "mulExp")
  , ("mulExp", mulBody)
  , ("priExp", .choice [ .terminal ['p','i'], .terminal ['x'] ]) ]

/-- Remove an entry from a memo table (used by the reentry-checking
evaluator to discard its in-progress marker when a rule application
completes). -/
def delMemo (m : Int → String → Option ε) (p : Int) (nm : String) :
    Int → String → Option ε :=
  fun q nm' => if q = p ∧ nm' = nm then none else m q nm'

/-- Modelled from the spec: evaluation with the memo table removed, i.e.
re-evaluating every rule application from scratch (spec section 8,
"Memoization transparency").  The memo component of the state is a placeholder
and is never consulted or written. -/
def evalNoMemo (g : Grammar) : Nat → Exp → St Unit → Outcome (St Unit)
  | 0, _, _ => .timeout
  | n + 1, e, s =>
    match e with
    | .terminal cs => terminalEval cs s
    | .choice es => choiceStep (evalNoMemo g n) es s.pos s
    | .sequence es => seqStep (evalNoMemo g n) es s []
    | .not e1 => notEval s.pos (evalNoMemo g n e1 s)
    | .repetition e1 => repStep (evalNoMemo g n) (n + 1) e1 s []
    | .ruleApplication name =>
      match List.lookup name g with
      | none => .err
      | some body => evalNoMemo g n body s

/-- Rule application for the reentry-checking evaluator: fail hard on
reentry at the same `(position, name)` key, otherwise evaluate the body from
scratch with an in-progress marker installed, removing it afterwards. -/
def ruleStepChk (g : Grammar) (ev : Exp → St Unit → Outcome (St Unit))
    (name : String) (s : St Unit) : Outcome (St Unit) :=
  match s.memo s.pos name with
  | some _ => .err
  | none =>
    match List.lookup name g with
    | none => .err
    | some body =>
      match ev body { s with memo := setMemo s.memo s.pos name () } with
      | .ok cst s2 => .ok cst { s2 with memo := delMemo s2.memo s.pos name }
      | r => r

/-- Modelled from the spec: the scratch evaluator instrumented with a
left-recursion detector.  The memo slot at `(p, nm)` holds `()` exactly while
the rule `nm` is being evaluated at position `p`; re-entering the same rule at
the same position before that evaluation completes — the definition of left
recursion at run time (spec glossary) — yields `.err`.  A run of `evalChk`
that returns `.ok` is therefore a run in which no left recursion occurs, and
its value and final position coincide with those of `evalNoMemo`. -/
def evalChk (g : Grammar) : Nat → Exp → St Unit → Outcome (St Unit)
  | 0, _, _ => .timeout
  | n + 1, e, s =>
    match e with
    | .terminal cs => terminalEval cs s
    | .choice es => choiceStep (evalChk g n) es s.pos s
    | .sequence es => seqStep (evalChk g n) es s []
    | .not e1 => notEval s.pos (evalChk g n e1 s)
    | .repetition e1 => repStep (evalChk g n) (n + 1) e1 s []
    | .ruleApplication name => ruleStepChk g (evalChk g n) name s

/-- Modelled from the spec: `match` for the scratch (memo-free) evaluator. -/
def matchNoMemo (g : Grammar) (n : Nat) (input : List Char) : Outcome Unit :=
  match evalNoMemo g n (.ruleApplication "start") (initSt input) with
  | .ok cst s => .ok (if s.pos = (input.length : Int) then cst else none) ()
  | .err => .err
  | .timeout => .timeout

mutual
/-- Every rule name referenced by a `RuleApplication` inside the expression
exists in the grammar (the grammar invariant of spec section 3). -/
def Exp.closedIn (g : Grammar) : Exp → Bool
  | .terminal _ => true
  | .ruleApplication nm => (List.lookup nm g).isSome
  | .choice es => closedInList g es
  | .sequence es => closedInList g es
  | .not e => Exp.closedIn g e
  | .repetition e => Exp.closedIn g e

/-- `Exp.closedIn` over a list of sub-expressions. -/
def closedInList (g : Grammar) : List Exp → Bool
  | [] => true
  | e :: es => Exp.closedIn g e && closedInList g es
end

/-- All rule bodies of the grammar reference only existing rules. -/
def Grammar.closed (g : Grammar) : Bool :=
  g.all fun p => Exp.closedIn g p.2

/-- Cursor and memo-entry bounds for states of the left-recursion-capable
matcher: every memoized `nextPos` (including the failer's `-1`) lies in
`[-1, length]`. -/
def entryOkL (inp : List Char) (e : LREntry) : Prop :=
  -1 ≤ e.nextPos ∧ e.nextPos ≤ (inp.length : Int)

/-- Memo-entry bounds for the plain matcher: cached success positions lie in
`[0, length]`. -/
def entryOkP (inp : List Char) : PEntry → Prop
  | .succ _ q => 0 ≤ q ∧ q ≤ (inp.length : Int)
  | .fail => True

/-- The state invariant: the cursor lies in `[lo, length]` and every memo
entry satisfies `eok`. -/
def InvSt (lo : Int) (eok : List Char → ε → Prop) (s : St ε) : Prop :=
  lo ≤ s.pos ∧ s.pos ≤ (s.input.length : Int) ∧
    ∀ p nm e, s.memo p nm = some e → eok s.input e

/-- Trajectory of the seed-growing loop, formalizing the hypothesis of the
left-recursion termination property: starting from the seed result `cst` with
state `s` (whose cursor is the seed's end position), each re-application of
the rule body from the original position — with the previous best memoized at
`(origPos, name)` — returns, and either strictly advances the cursor past the
previous best (a growth round, `step`) or fails / fails to advance (the final
round, `exit`).  The index counts the number of loop iterations; the last two
arguments before it record the final accepted result and its end position. -/
inductive GrowCond (g : Grammar) (n : Nat) (name : String) (body : Exp)
    (origPos : Int) : Option CST → StL → Option CST → Int → Nat → Prop where
  | exit : ∀ cst (s : StL) (v' : Option CST) (s' : StL),
      evalL g n body (growReset s name origPos cst) = .ok v' s' →
      (v' = none ∨ s'.pos ≤ s.pos) →
      s.pos ≤ (s.input.length : Int) →
      GrowCond g n name body origPos cst s cst s.pos 1
  | step : ∀ cst (s : StL) (c : CST) (s' : StL) vfin pfin j,
      evalL g n body (growReset s name origPos cst) = .ok (some c) s' →
      s.pos < s'.pos →
      s'.pos ≤ (s'.input.length : Int) →
      s'.input = s.input →
      GrowCond g n name body origPos (some c) s' vfin pfin j →
      GrowCond g n name body origPos cst s vfin pfin (j + 1)

/-- Right-recursive (non-left-recursive) example grammar:
`start = a`, `a = "a" a | "a"` (spec section 8, scenario 5). -/
def gA : Grammar :=
  [ ("start", .ruleApplication "a")
  , ("a", .choice [ .sequence [ .terminal ['a'], .ruleApplication "a" ]
                  , .terminal ['a'] ]) ]

/-! ### Simulation framework for memoization transparency (C3)

`SimR MR o₁ o₂` says: whenever the reference run `o₁` returns, the simulated
run `o₂` returns the same value, with related final states, and with the same
final cursor whenever the value is a success.  (Failure cursors are allowed to
differ: the two matchers really do leave different cursors after failed rule
applications, and no caller observes them — every combinator either resets the
cursor or propagates the failure.) -/
def SimR (MR : St ε₁ → St ε₂ → Prop)
    (o₁ : Outcome (St ε₁)) (o₂ : Outcome (St ε₂)) : Prop :=
  ∀ v s₁, o₁ = .ok v s₁ →
    ∃ s₂, o₂ = .ok v s₂ ∧ MR s₁ s₂ ∧ (v ≠ none → s₂.pos = s₁.pos)

/-- Two evaluators are related when they simulate each other (in the `SimR`
sense) from any pair of related states with equal cursors. -/
def EvRel (MR : St ε₁ → St ε₂ → Prop)
    (ev₁ : Exp → St ε₁ → Outcome (St ε₁))
    (ev₂ : Exp → St ε₂ → Outcome (St ε₂)) : Prop :=
  ∀ e s₁ s₂, s₁.pos = s₂.pos → MR s₁ s₂ → SimR MR (ev₁ e s₁) (ev₂ e s₂)

/-- A state relation that does not constrain the cursor. -/
def PosFree (MR : St ε₁ → St ε₂ → Prop) : Prop :=
  ∀ (s₁ : St ε₁) (s₂ : St ε₂) (p q : Int),
    MR s₁ s₂ → MR { s₁ with pos := p } { s₂ with pos := q }

/-- Modelled from the spec: correctness of a memoized outcome for rule `nm`
at position `p` with respect to the scratch (memo-free) evaluator — the
outcome some memo-free evaluation of `RuleApplication nm` from position `p`
produces, with, on success, `q` as its final cursor. -/
def NMCorrect (g : Grammar) (input : List Char) (p : Int) (nm : String) :
    Option CST → Int → Prop
  | some c, q => ∃ (k : Nat) (t : St Unit),
      evalNoMemo g k (.ruleApplication nm) ⟨input, p, fun _ _ => none⟩ =
        .ok (some c) t ∧ t.pos = q
  | none, _ => ∃ (k : Nat) (t : St Unit),
      evalNoMemo g k (.ruleApplication nm) ⟨input, p, fun _ _ => none⟩ =
        .ok none t

/-- Correctness of a plain-matcher memo entry with respect to the scratch
evaluator. -/
def pentryOk (g : Grammar) (input : List Char) (p : Int) (nm : String) :
    PEntry → Prop
  | .succ c q => NMCorrect g input p nm (some c) q
  | .fail => NMCorrect g input p nm none 0

/-- State relation between the reentry-checking run and the plain packrat
run: same input, and every memo entry of the plain matcher is correct with
respect to the scratch evaluator. -/
def MRP (g : Grammar) (s₁ : St Unit) (s₂ : StP) : Prop :=
  s₁.input = s₂.input ∧
  ∀ p nm e, s₂.memo p nm = some e → pentryOk g s₂.input p nm e

/-- State relation between the reentry-checking run and the left-recursion-
capable run: same input; failer entries are unused and correspond exactly to
the checker's in-progress markers; resolved entries are correct with respect
to the scratch evaluator. -/
def MRL (g : Grammar) (s₁ : St Unit) (s₂ : StL) : Prop :=
  s₁.input = s₂.input ∧
  (∀ p nm e, s₂.memo p nm = some e → e.isFailer = true →
    e.used = false ∧ s₁.memo p nm = some ()) ∧
  (∀ p nm, s₁.memo p nm = some () →
    ∃ e, s₂.memo p nm = some e ∧ e.isFailer = true) ∧
  (∀ p nm e, s₂.memo p nm = some e → e.isFailer = false →
    NMCorrect g s₂.input p nm e.cst e.nextPos)

/-- State relation between the reentry-checking run and the scratch run:
same input (the scratch run's memo component is never consulted). -/
def MRNM (s₁ s₂ : St Unit) : Prop := s₁.input = s₂.input

/-- State relation for fuel monotonicity of the scratch evaluator: same
input and memo. -/
def MReq (s₁ s₂ : St Unit) : Prop := s₁.input = s₂.input ∧ s₁.memo = s₂.memo

/-- Evaluator preservation property used by the invariant lemmas: a returning
evaluation keeps the input and preserves the state invariant `I`. -/
def PrInv (I : St ε → Prop) (ev : Exp → St ε → Outcome (St ε)) : Prop :=
  ∀ e s v s', ev e s = .ok v s' → s'.input = s.input ∧ (I s → I s')

/-- Evaluator preservation property for the memo-less evaluators: a returning
evaluation keeps both the input and the memo component unchanged. -/
def PrMemo (ev : Exp → St ε → Outcome (St ε)) : Prop :=
  ∀ e s v s', ev e s = .ok v s' → s'.input = s.input ∧ s'.memo = s.memo


/-! ## Unfolding equations

One-step `rfl` equations for each node variant, used to rewrite the fuel-
indexed evaluators in proofs. -/

theorem evalL_not_eq (g : Grammar) (n : Nat) (e : Exp) (s : StL) :
    evalL g (n + 1) (.not e) s = notEval s.pos (evalL g n e s) := rfl

theorem evalP_not_eq (g : Grammar) (n : Nat) (e : Exp) (s : StP) :
    evalP g (n + 1) (.not e) s = notEval s.pos (evalP g n e s) := rfl

theorem terminalEval_eq (cs : List Char) (s : St ε) :
    terminalEval cs s =
      match terminalLoop cs s with
      | (true, s') => .ok (some (.str cs)) s'
      | (false, s') => .ok none s' := rfl

theorem notEval_eq (p : Int) (r : Outcome (St ε)) :
    notEval p r =
      match r with
      | .ok none s' => .ok (some .tru) { s' with pos := p }
      | .ok (some _) s' => .ok none s'
      | r => r := rfl

theorem choiceStep_cons_eq (ev : Exp → St ε → Outcome (St ε)) (e : Exp)
    (es : List Exp) (orig : Int) (s : St ε) :
    choiceStep ev (e :: es) orig s =
      match ev e { s with pos := orig } with
      | .ok none s' => choiceStep ev es orig s'
      | r => r := rfl

theorem repStep_succ_eq (ev : Exp → St ε → Outcome (St ε)) (k : Nat) (e : Exp)
    (s : St ε) (acc : List CST) :
    repStep ev (k + 1) e s acc =
      match ev e s with
      | .ok none s' => .ok (some (.list acc.reverse)) { s' with pos := s.pos }
      | .ok (some c) s' => repStep ev k e s' (c :: acc)
      | r => r := rfl

/-! ## Claim theorems -/

/-- C10: for every parse state (in either matcher version), evaluating
`Terminal('')` — a terminal whose literal is the empty sequence — succeeds,
returns the empty literal as its CST, and leaves the state (in particular the
cursor) unchanged; this includes states whose cursor is at the end of the
input, since the state is arbitrary. -/
theorem claim10_terminal_empty (g g' : Grammar) (n m : Nat) (s : StL) (sP : StP) :
    evalL g (n + 1) (.terminal []) s = .ok (some (.str [])) s ∧
    evalP g' (m + 1) (.terminal []) sP = .ok (some (.str [])) sP :=
  ⟨rfl, rfl⟩

/-- C4 counterexample: evaluating `Not(Terminal "a")` on input `"a"` at
position `0` makes the inner expression succeed, so `Not` fails — and leaves
the cursor at `1`, not at the saved position `0`.  The claim that `Not` leaves
the cursor at its pre-evaluation position *regardless* of the inner outcome is
false: the code restores the cursor only when the inner expression fails. -/
theorem claim4_counterexample :
    (evalL [] 2 (.not (.terminal ['a'])) (initSt ['a'])).val? = some none ∧
    (evalL [] 2 (.not (.terminal ['a'])) (initSt ['a'])).pos? = some 1 ∧
    (evalL [] 2 (.not (.terminal ['a'])) (initSt ['a'])).pos? ≠ some 0 :=
  ⟨rfl, rfl, by decide⟩

/-- C4 (amended): in both matcher versions, `Not(inner)` restores the cursor
to its pre-evaluation position exactly when the inner expression fails (and
then succeeds with the payload-free marker `true`); when the inner expression
succeeds, `Not` fails and leaves the cursor (and state) where the inner
evaluation left it.  `Not` succeeds iff the inner expression failed. -/
theorem claim4_not_cursor :
    (∀ (g : Grammar) (n : Nat) (e : Exp) (s s1 : StL) (v : Option CST),
      evalL g n e s = .ok v s1 →
        (v = none →
          evalL g (n + 1) (.not e) s = .ok (some .tru) { s1 with pos := s.pos }) ∧
        (∀ c, v = some c → evalL g (n + 1) (.not e) s = .ok none s1)) ∧
    (∀ (g : Grammar) (n : Nat) (e : Exp) (s s1 : StP) (v : Option CST),
      evalP g n e s = .ok v s1 →
        (v = none →
          evalP g (n + 1) (.not e) s = .ok (some .tru) { s1 with pos := s.pos }) ∧
        (∀ c, v = some c → evalP g (n + 1) (.not e) s = .ok none s1)) := by
  constructor
  · intro g n e s s1 v h
    constructor
    · intro hv; subst hv; rw [evalL_not_eq, h]; rfl
    · intro c hv; subst hv; rw [evalL_not_eq, h]; rfl
  · intro g n e s s1 v h
    constructor
    · intro hv; subst hv; rw [evalP_not_eq, h]; rfl
    · intro c hv; subst hv; rw [evalP_not_eq, h]; rfl

/-- Witness for C4 (amended): on input `"b"`, `Not("a")` succeeds with the
marker and the cursor stays at `0`; on input `"p"`, `Not("p")` fails with the
cursor advanced to `1`. -/
theorem claim4_witness :
    evalL [] 2 (.not (.terminal ['a'])) (initSt ['b']) =
      .ok (some .tru) (initSt ['b']) ∧
    evalL [] 2 (.not (.terminal ['p'])) (initSt ['p']) =
      .ok none (⟨['p'], 1, fun _ _ => none⟩ : StL) := by
  constructor
  · exact (claim4_not_cursor.1 [] 1 (.terminal ['a']) (initSt ['b'])
      (initSt ['b']) none rfl).1 rfl
  · exact (claim4_not_cursor.1 [] 1 (.terminal ['p']) (initSt ['p'])
      (⟨['p'], 1, fun _ _ => none⟩ : StL) (some (.str ['p'])) rfl).2
      (.str ['p']) rfl

/-- C5 counterexample: `Choice([Terminal "ab"])` on input `"ax"` fails every
alternative, and the cursor is left at `1` — where the last (failing)
alternative stopped — not restored to the saved start position `0`.  The
claim's assertion that on total failure the caller observes
`position == start` is false. -/
theorem claim5_counterexample :
    (evalL [] 3 (.choice [.terminal ['a', 'b']]) (initSt ['a', 'x'])).val? =
      some none ∧
    (evalL [] 3 (.choice [.terminal ['a', 'b']]) (initSt ['a', 'x'])).pos? =
      some 1 ∧
    (evalL [] 3 (.choice [.terminal ['a', 'b']]) (initSt ['a', 'x'])).pos? ≠
      some 0 :=
  ⟨rfl, rfl, by decide⟩

/-- C5 (amended): in both matcher versions, `Choice` records the start
position, resets the cursor to it before each alternative attempt, and returns
the result of the first alternative that succeeds; when every alternative
fails, it returns failure with the cursor left wherever the *last* failing
alternative's evaluation left it (the cursor is reset only before attempts,
never after the final failure; with zero alternatives the cursor is
unchanged). -/
theorem claim5_choice_first_success :
    (∀ (g : Grammar) (n : Nat) (es : List Exp) (s : StL),
      evalL g (n + 1) (.choice es) s = choiceStep (evalL g n) es s.pos s) ∧
    (∀ (g : Grammar) (n : Nat) (es : List Exp) (s : StP),
      evalP g (n + 1) (.choice es) s = choiceStep (evalP g n) es s.pos s) ∧
    (∀ (ε : Type) (ev : Exp → St ε → Outcome (St ε)) (orig : Int) (s : St ε),
      choiceStep ev [] orig s = .ok none s) ∧
    (∀ (ε : Type) (ev : Exp → St ε → Outcome (St ε)) (e : Exp) (es : List Exp)
      (orig : Int) (s s' : St ε) (c : CST),
      ev e { s with pos := orig } = .ok (some c) s' →
      choiceStep ev (e :: es) orig s = .ok (some c) s') ∧
    (∀ (ε : Type) (ev : Exp → St ε → Outcome (St ε)) (e : Exp) (es : List Exp)
      (orig : Int) (s s' : St ε),
      ev e { s with pos := orig } = .ok none s' →
      choiceStep ev (e :: es) orig s = choiceStep ev es orig s') := by
  refine ⟨fun _ _ _ _ => rfl, fun _ _ _ _ => rfl, fun _ _ _ _ => rfl, ?_, ?_⟩
  · intro ε ev e es orig s s' c h
    rw [choiceStep_cons_eq, h]
  · intro ε ev e es orig s s' h
    rw [choiceStep_cons_eq, h]

/-- Witness for C5 (amended): with a single alternative `Terminal "a"` on
input `"a"`, the first success is returned from the reset position; with the
failing alternative first, evaluation moves on to the remaining
alternatives. -/
theorem claim5_witness :
    choiceStep (evalL [] 2) [.terminal ['a']] 0 (initSt ['a']) =
      .ok (some (.str ['a'])) (⟨['a'], 1, fun _ _ => none⟩ : StL) ∧
    choiceStep (evalL [] 2) [.terminal ['b'], .terminal ['a']] 0 (initSt ['a']) =
      choiceStep (evalL [] 2) [.terminal ['a']] 0 (initSt ['a']) := by
  constructor
  · exact claim5_choice_first_success.2.2.2.1 LREntry (evalL [] 2)
      (.terminal ['a']) [] 0 (initSt ['a'])
      (⟨['a'], 1, fun _ _ => none⟩ : StL) (.str ['a']) rfl
  · exact claim5_choice_first_success.2.2.2.2 LREntry (evalL [] 2)
      (.terminal ['b']) [.terminal ['a']] 0 (initSt ['a']) (initSt ['a']) rfl

/-- C8: in both matcher versions, `Repetition(element)` never returns failure;
it repeatedly attempts the element (the fuel index only bounds the number of
modelled iterations), and on the first failing attempt it restores the cursor
to that attempt's saved position and returns the ordered (possibly empty) list
of the results of all prior successful attempts; each successful attempt
appends its result and continues from the state the attempt produced. -/
theorem claim8_repetition_greedy :
    (∀ (g : Grammar) (n : Nat) (e : Exp) (s : StL),
      evalL g (n + 1) (.repetition e) s = repStep (evalL g n) (n + 1) e s []) ∧
    (∀ (g : Grammar) (n : Nat) (e : Exp) (s : StP),
      evalP g (n + 1) (.repetition e) s = repStep (evalP g n) (n + 1) e s []) ∧
    (∀ (ε : Type) (ev : Exp → St ε → Outcome (St ε)) (k : Nat) (e : Exp)
      (s s' : St ε) (acc : List CST) (v : Option CST),
      repStep ev k e s acc = .ok v s' → v ≠ none) ∧
    (∀ (ε : Type) (ev : Exp → St ε → Outcome (St ε)) (k : Nat) (e : Exp)
      (s s1 : St ε) (acc : List CST),
      ev e s = .ok none s1 →
      repStep ev (k + 1) e s acc = .ok (some (.list acc.reverse)) { s1 with pos := s.pos }) ∧
    (∀ (ε : Type) (ev : Exp → St ε → Outcome (St ε)) (k : Nat) (e : Exp)
      (s s1 : St ε) (acc : List CST) (c : CST),
      ev e s = .ok (some c) s1 →
      repStep ev (k + 1) e s acc = repStep ev k e s1 (c :: acc)) := by
  refine ⟨fun _ _ _ _ => rfl, fun _ _ _ _ => rfl, ?_, ?_, ?_⟩
  · intro ε ev k e
    induction k with
    | zero => intro s s' acc v h; exact absurd h (by simp [repStep])
    | succ k ih =>
      intro s s' acc v h
      rw [repStep_succ_eq] at h
      cases hev : ev e s with
      | ok v1 s1 =>
        rw [hev] at h
        cases v1 with
        | none => cases h; simp
        | some c => exact ih s1 s' (c :: acc) v h
      | err => rw [hev] at h; cases h
      | timeout => rw [hev] at h; cases h
  · intro ε ev k e s s1 acc h
    rw [repStep_succ_eq, h]
  · intro ε ev k e s s1 acc c h
    rw [repStep_succ_eq, h]

/-- Witness for C8: repeating `Terminal "a"` over input `"a"`, one successful
attempt is accumulated, the next attempt fails at the end of the input and the
result is the singleton list with the cursor restored to the failing attempt's
start; the overall result is a success (not the failure value). -/
theorem claim8_witness :
    repStep (evalL [] 2) 2 (.terminal ['a']) (initSt ['a']) [] =
      repStep (evalL [] 2) 1 (.terminal ['a'])
        (⟨['a'], 1, fun _ _ => none⟩ : StL) [.str ['a']] ∧
    repStep (evalL [] 2) 1 (.terminal ['a'])
        (⟨['a'], 1, fun _ _ => none⟩ : StL) [.str ['a']] =
      .ok (some (.list [.str ['a']])) (⟨['a'], 1, fun _ _ => none⟩ : StL) ∧
    (some (CST.list [.str ['a']]) : Option CST) ≠ none := by
  refine ⟨?_, ?_, ?_⟩
  · exact claim8_repetition_greedy.2.2.2.2 LREntry (evalL [] 2) 1
      (.terminal ['a']) (initSt ['a'])
      (⟨['a'], 1, fun _ _ => none⟩ : StL) [] (.str ['a']) rfl
  · exact claim8_repetition_greedy.2.2.2.1 LREntry (evalL [] 2) 0
      (.terminal ['a']) (⟨['a'], 1, fun _ _ => none⟩ : StL)
      (⟨['a'], 1, fun _ _ => none⟩ : StL) [.str ['a']] rfl
  · exact claim8_repetition_greedy.2.2.1 LREntry (evalL [] 2) 1
      (.terminal ['a']) (⟨['a'], 1, fun _ _ => none⟩ : StL)
      (⟨['a'], 1, fun _ _ => none⟩ : StL) [.str ['a']]
      (some (.list [.str ['a']])) (by
        exact claim8_repetition_greedy.2.2.2.1 LREntry (evalL [] 2) 0
          (.terminal ['a']) (⟨['a'], 1, fun _ _ => none⟩ : StL)
          (⟨['a'], 1, fun _ _ => none⟩ : StL) [.str ['a']] rfl)

theorem matchL_eq (g : Grammar) (n : Nat) (input : List Char) :
    matchL g n input =
      match evalL g n (.ruleApplication "start") (initSt input) with
      | .ok cst s => .ok (if s.pos = (input.length : Int) then cst else none) ()
      | .err => .err
      | .timeout => .timeout := rfl

theorem matchP_eq (g : Grammar) (n : Nat) (input : List Char) :
    matchP g n input =
      match evalP g n (.ruleApplication "start") (initSt input) with
      | .ok cst s => .ok (if s.pos = (input.length : Int) then cst else none) ()
      | .err => .err
      | .timeout => .timeout := rfl

/-- C2: in both matcher versions, `match(input)` evaluates the rule named
`start` on a fresh parse state (cursor `0`, empty memo table — this is the
state `initSt input`) and returns the resulting CST only when the cursor after
that evaluation equals the input length; when the start rule fails, or
succeeds consuming only a strict prefix of the input, `match` returns the
failure value and exposes no partial result. -/
theorem claim2_match_full_consumption :
    (∀ (g : Grammar) (n : Nat) (input : List Char) (v : Option CST) (s' : StL),
      evalL g n (.ruleApplication "start") (initSt input) = .ok v s' →
        matchL g n input =
          .ok (if s'.pos = (input.length : Int) then v else none) () ∧
        (s'.pos ≠ (input.length : Int) → matchL g n input = .ok none ()) ∧
        (v = none → matchL g n input = .ok none ())) ∧
    (∀ (g : Grammar) (n : Nat) (input : List Char) (v : Option CST) (s' : StP),
      evalP g n (.ruleApplication "start") (initSt input) = .ok v s' →
        matchP g n input =
          .ok (if s'.pos = (input.length : Int) then v else none) () ∧
        (s'.pos ≠ (input.length : Int) → matchP g n input = .ok none ()) ∧
        (v = none → matchP g n input = .ok none ())) := by
  constructor
  · intro g n input v s' h
    have hm : matchL g n input =
        .ok (if s'.pos = (input.length : Int) then v else none) () := by
      rw [matchL_eq, h]
    refine ⟨hm, ?_, ?_⟩
    · intro hne; rw [hm, if_neg hne]
    · intro hv; subst hv; rw [hm, ite_self]
  · intro g n input v s' h
    have hm : matchP g n input =
        .ok (if s'.pos = (input.length : Int) then v else none) () := by
      rw [matchP_eq, h]
    refine ⟨hm, ?_, ?_⟩
    · intro hne; rw [hm, if_neg hne]
    · intro hv; subst hv; rw [hm, ite_self]

/-- Witness for C2: on the example grammar, input `"x"` is fully consumed and
`match` returns its CST; on input `"pi+"` the start rule succeeds consuming
only the prefix `"pi"` (cursor `2` of `3`), and `match` returns failure. -/
theorem claim2_witness :
    matchL gMul 20 ['x'] = .ok (some (.str ['x'])) () ∧
    matchL gMul 20 ['p', 'i', '+'] = .ok none () := by
  constructor
  · exact (claim2_match_full_consumption.1 gMul 20 ['x'] (some (.str ['x']))
      ((evalL gMul 20 (.ruleApplication "start") (initSt ['x'])).stOr
        (initSt ['x'])) rfl).1
  · exact (claim2_match_full_consumption.1 gMul 20 ['p', 'i', '+']
      (some (.str ['p', 'i']))
      ((evalL gMul 20 (.ruleApplication "start") (initSt ['p', 'i', '+'])).stOr
        (initSt ['p', 'i', '+'])) rfl).2.1 (by decide)

/-- C6 counterexample: in the left-recursion-capable matcher, a *Resolved*
memo entry recording a failure also records the position where the failing
evaluation left the cursor (`memoizeResult` stores `nextPos: this.pos`
unconditionally), and `useMemoizedResult` sets the cursor to it: with a cached
failure at `(0, "r")` whose `nextPos` is `1`, a rule application at position
`0` returns failure with the cursor moved to `1`, not left unchanged. -/
theorem claim6_counterexample :
    (evalL [] 1 (.ruleApplication "r")
      (⟨['a', 'x'], 0, fun p nm =>
        if p = 0 ∧ nm = "r" then some ⟨none, 1, false, false⟩ else none⟩ :
        StL)).val? = some none ∧
    (evalL [] 1 (.ruleApplication "r")
      (⟨['a', 'x'], 0, fun p nm =>
        if p = 0 ∧ nm = "r" then some ⟨none, 1, false, false⟩ else none⟩ :
        StL)).pos? = some 1 ∧
    (evalL [] 1 (.ruleApplication "r")
      (⟨['a', 'x'], 0, fun p nm =>
        if p = 0 ∧ nm = "r" then some ⟨none, 1, false, false⟩ else none⟩ :
        StL)).pos? ≠ some 0 :=
  ⟨rfl, rfl, by decide⟩

/-- C6 (amended): a rule application at a position holding a *Resolved* memo
entry returns the cached outcome without re-evaluating the rule body (the
result does not depend on the grammar at all).  In the plain packrat matcher
the claim holds as stated: a cached success advances the cursor to the cached
next-position and a cached failure leaves the cursor at the lookup position.
In the left-recursion-capable matcher a cached outcome — success *or*
failure — sets the cursor to the entry's recorded `nextPos`, which for a
cached failure is the position where the failing evaluation left the cursor
and may differ from the lookup position. -/
theorem claim6_memo_lookup :
    (∀ (g : Grammar) (n : Nat) (name : String) (s : StP) (c : CST) (q : Int),
      s.memo s.pos name = some (.succ c q) →
      evalP g (n + 1) (.ruleApplication name) s = .ok (some c) { s with pos := q }) ∧
    (∀ (g : Grammar) (n : Nat) (name : String) (s : StP),
      s.memo s.pos name = some .fail →
      evalP g (n + 1) (.ruleApplication name) s = .ok none s) ∧
    (∀ (g : Grammar) (n : Nat) (name : String) (s : StL) (entry : LREntry),
      s.memo s.pos name = some entry → entry.isFailer = false →
      evalL g (n + 1) (.ruleApplication name) s =
        .ok entry.cst { s with pos := entry.nextPos }) := by
  refine ⟨?_, ?_, ?_⟩
  · intro g n name s c q h
    show ruleStepP g (evalP g n) name s = _
    rw [ruleStepP, h]
  · intro g n name s h
    show ruleStepP g (evalP g n) name s = _
    rw [ruleStepP, h]
  · intro g n name s entry h hf
    show ruleStepL g (evalL g n) (n + 1) name s = _
    rw [ruleStepL, h]
    simp [hf]

/-- Witness for C6 (amended): cached success and failure entries in the plain
matcher, and a cached success in the LR matcher, each replayed from the memo
table at position `0`. -/
theorem claim6_witness :
    evalP [] 1 (.ruleApplication "r")
      (⟨['a'], 0, fun p nm =>
        if p = 0 ∧ nm = "r" then some (.succ (.str ['a']) 1) else none⟩ : StP) =
      .ok (some (.str ['a']))
        (⟨['a'], 1, fun p nm =>
          if p = 0 ∧ nm = "r" then some (.succ (.str ['a']) 1) else none⟩ : StP) ∧
    evalP [] 1 (.ruleApplication "q")
      (⟨['a'], 0, fun p nm =>
        if p = 0 ∧ nm = "q" then some .fail else none⟩ : StP) =
      .ok none
        (⟨['a'], 0, fun p nm =>
          if p = 0 ∧ nm = "q" then some .fail else none⟩ : StP) ∧
    evalL [] 1 (.ruleApplication "r")
      (⟨['a'], 0, fun p nm =>
        if p = 0 ∧ nm = "r" then some ⟨some (.str ['a']), 1, false, false⟩
        else none⟩ : StL) =
      .ok (some (.str ['a']))
        (⟨['a'], 1, fun p nm =>
          if p = 0 ∧ nm = "r" then some ⟨some (.str ['a']), 1, false, false⟩
          else none⟩ : StL) := by
  refine ⟨?_, ?_, ?_⟩
  · exact claim6_memo_lookup.1 [] 0 "r" _ (.str ['a']) 1 rfl
  · exact claim6_memo_lookup.2.1 [] 0 "q" _ rfl
  · exact claim6_memo_lookup.2.2 [] 0 "r" _ ⟨some (.str ['a']), 1, false, false⟩
      rfl rfl

theorem lookup_mem {nm : String} {b : Exp} :
    ∀ {g : Grammar}, List.lookup nm g = some b → (nm, b) ∈ g := by
  intro g h
  induction g with
  | nil => cases h
  | cons p es ih =>
    obtain ⟨k, v⟩ := p
    rw [List.lookup] at h
    cases hbe : nm == k with
    | true =>
      rw [hbe] at h
      cases h
      have hk : nm = k := eq_of_beq hbe
      subst hk
      exact List.mem_cons_self _ _
    | false =>
      rw [hbe] at h
      exact List.mem_cons_of_mem _ (ih h)

theorem closedInList_mem {g : Grammar} {es : List Exp} {e : Exp}
    (h : closedInList g es = true) (he : e ∈ es) : Exp.closedIn g e = true := by
  induction es with
  | nil => cases he
  | cons e' es ih =>
    rw [closedInList, Bool.and_eq_true] at h
    rcases List.mem_cons.mp he with rfl | he
    · exact h.1
    · exact ih h.2 he

theorem closed_body {g : Grammar} {nm : String} {b : Exp}
    (hg : Grammar.closed g = true) (h : List.lookup nm g = some b) :
    Exp.closedIn g b = true := by
  have hm := lookup_mem h
  rw [Grammar.closed, List.all_eq_true] at hg
  exact hg _ hm

theorem choiceStep_ne_err {ev : Exp → St ε → Outcome (St ε)} {es : List Exp}
    (hev : ∀ e ∈ es, ∀ s, ev e s ≠ .err) :
    ∀ (orig : Int) (s : St ε), choiceStep ev es orig s ≠ .err := by
  induction es with
  | nil => intro orig s h; cases h
  | cons e es ih =>
    intro orig s
    rw [choiceStep_cons_eq]
    cases hr : ev e { s with pos := orig } with
    | ok v s' =>
      cases v with
      | none => exact ih (fun e he s => hev e (List.mem_cons_of_mem _ he) s) orig s'
      | some c => intro h; cases h
    | err => exact absurd hr (hev e (List.mem_cons_self _ _) _)
    | timeout => intro h; cases h

theorem seqStep_cons_eq (ev : Exp → St ε → Outcome (St ε)) (e : Exp)
    (es : List Exp) (s : St ε) (acc : List CST) :
    seqStep ev (e :: es) s acc =
      match ev e s with
      | .ok none s' => .ok none s'
      | .ok (some c) s' => seqStep ev es s' (if e.isNot then acc else c :: acc)
      | r => r := rfl

theorem seqStep_ne_err {ev : Exp → St ε → Outcome (St ε)} {es : List Exp}
    (hev : ∀ e ∈ es, ∀ s, ev e s ≠ .err) :
    ∀ (s : St ε) (acc : List CST), seqStep ev es s acc ≠ .err := by
  induction es with
  | nil => intro s acc h; cases h
  | cons e es ih =>
    intro s acc
    rw [seqStep_cons_eq]
    cases hr : ev e s with
    | ok v s' =>
      cases v with
      | none => intro h; cases h
      | some c => exact ih (fun e he s => hev e (List.mem_cons_of_mem _ he) s) s' _
    | err => exact absurd hr (hev e (List.mem_cons_self _ _) _)
    | timeout => intro h; cases h

theorem repStep_ne_err {ev : Exp → St ε → Outcome (St ε)} {e : Exp}
    (hev : ∀ s, ev e s ≠ .err) :
    ∀ (k : Nat) (s : St ε) (acc : List CST), repStep ev k e s acc ≠ .err := by
  intro k
  induction k with
  | zero => intro s acc h; cases h
  | succ k ih =>
    intro s acc
    rw [repStep_succ_eq]
    cases hr : ev e s with
    | ok v s' =>
      cases v with
      | none => intro h; cases h
      | some c => exact ih s' _
    | err => exact absurd hr (hev _)
    | timeout => intro h; cases h

theorem growStep_succ_eq (ev : Exp → StL → Outcome StL) (k : Nat)
    (name : String) (body : Exp) (origPos : Int) (cst : Option CST) (s : StL) :
    growStep ev (k + 1) name body origPos cst s =
      match ev body (growReset s name origPos cst) with
      | .ok cst2 s2 =>
        if cst2.isSome ∧ s.pos < s2.pos then
          growStep ev k name body origPos cst2 s2
        else
          .ok cst { s2 with pos := s.pos }
      | r => r := rfl

theorem growStep_ne_err {ev : Exp → StL → Outcome StL} {body : Exp}
    {name : String} {origPos : Int} (hev : ∀ s, ev body s ≠ .err) :
    ∀ (k : Nat) (cst : Option CST) (s : StL),
      growStep ev k name body origPos cst s ≠ .err := by
  intro k
  induction k with
  | zero => intro cst s h; cases h
  | succ k ih =>
    intro cst s
    rw [growStep_succ_eq]
    cases hr : ev body (growReset s name origPos cst) with
    | ok v s' =>
      show (if v.isSome ∧ s.pos < s'.pos then growStep ev k name body origPos v s'
            else Outcome.ok cst { s' with pos := s.pos }) ≠ Outcome.err
      by_cases hc : v.isSome ∧ s.pos < s'.pos
      · rw [if_pos hc]; exact ih v s'
      · rw [if_neg hc]; intro h; cases h
    | err => exact absurd hr (hev _)
    | timeout => intro h; cases h

theorem ruleStepL_ne_err {g : Grammar} {ev : Exp → StL → Outcome StL}
    {name : String}
    (hev : ∀ body, List.lookup name g = some body → ∀ s, ev body s ≠ .err)
    (hname : (List.lookup name g).isSome = true) :
    ∀ (k : Nat) (s : StL), ruleStepL g ev k name s ≠ .err := by
  intro k s
  rw [ruleStepL]
  cases hm : s.memo s.pos name with
  | some entry => intro h; cases h
  | none =>
    cases hl : List.lookup name g with
    | none => rw [hl] at hname; cases hname
    | some body =>
      show (match ev body { s with memo := setMemo s.memo s.pos name lrFailer } with
            | .ok cst s2 =>
              if usedFlag s2.memo s.pos name = true then
                growStep ev k name body s.pos cst
                  { s2 with memo := setMemo s2.memo s.pos name ⟨cst, s2.pos, false, false⟩ }
              else
                Outcome.ok cst
                  { s2 with memo := setMemo s2.memo s.pos name ⟨cst, s2.pos, false, false⟩ }
            | r => r) ≠ Outcome.err
      cases hr : ev body { s with memo := setMemo s.memo s.pos name lrFailer } with
      | ok v s2 =>
        show (if usedFlag s2.memo s.pos name = true then
                growStep ev k name body s.pos v
                  { s2 with memo := setMemo s2.memo s.pos name ⟨v, s2.pos, false, false⟩ }
              else
                Outcome.ok v
                  { s2 with memo := setMemo s2.memo s.pos name ⟨v, s2.pos, false, false⟩ }) ≠
          Outcome.err
        by_cases hu : usedFlag s2.memo s.pos name = true
        · rw [if_pos hu]
          exact growStep_ne_err (hev body hl) _ v _
        · rw [if_neg hu]
          intro h; cases h
      | err => exact absurd hr (hev body hl _)
      | timeout => intro h; cases h

theorem ruleStepP_ne_err {g : Grammar} {ev : Exp → StP → Outcome StP}
    {name : String}
    (hev : ∀ body, List.lookup name g = some body → ∀ s, ev body s ≠ .err)
    (hname : (List.lookup name g).isSome = true) :
    ∀ (s : StP), ruleStepP g ev name s ≠ .err := by
  intro s
  rw [ruleStepP]
  cases hm : s.memo s.pos name with
  | some entry => cases entry <;> (intro h; cases h)
  | none =>
    cases hl : List.lookup name g with
    | none => rw [hl] at hname; cases hname
    | some body =>
      show (match ev body s with
            | .ok cst s2 =>
              Outcome.ok cst
                { s2 with memo := setMemo s2.memo s.pos name (pentryOf cst s2.pos) }
            | r => r) ≠ Outcome.err
      cases hr : ev body s with
      | ok v s2 => intro h; cases h
      | err => exact absurd hr (hev body hl _)
      | timeout => intro h; cases h

theorem evalL_ne_err {g : Grammar} (hg : Grammar.closed g = true) :
    ∀ (n : Nat) (e : Exp) (s : StL), Exp.closedIn g e = true →
      evalL g n e s ≠ .err := by
  intro n
  induction n with
  | zero => intro e s _ h; cases h
  | succ n ih =>
    intro e s hc
    cases e with
    | terminal cs =>
      show terminalEval cs s ≠ .err
      rw [terminalEval_eq]
      rcases terminalLoop cs s with ⟨b, s'⟩
      cases b <;> (intro h; cases h)
    | choice es =>
      rw [Exp.closedIn] at hc
      exact choiceStep_ne_err (fun e he s => ih e s (closedInList_mem hc he)) _ _
    | sequence es =>
      rw [Exp.closedIn] at hc
      exact seqStep_ne_err (fun e he s => ih e s (closedInList_mem hc he)) _ _
    | not e1 =>
      rw [Exp.closedIn] at hc
      show notEval s.pos (evalL g n e1 s) ≠ .err
      rw [notEval_eq]
      cases hr : evalL g n e1 s with
      | ok v s' => cases v <;> (intro h; cases h)
      | err => exact absurd hr (ih e1 s hc)
      | timeout => intro h; cases h
    | repetition e1 =>
      rw [Exp.closedIn] at hc
      exact repStep_ne_err (fun s => ih e1 s hc) _ _ _
    | ruleApplication nm =>
      rw [Exp.closedIn] at hc
      exact ruleStepL_ne_err
        (fun body hl s => ih body s (closed_body hg hl)) hc _ s

theorem evalP_ne_err {g : Grammar} (hg : Grammar.closed g = true) :
    ∀ (n : Nat) (e : Exp) (s : StP), Exp.closedIn g e = true →
      evalP g n e s ≠ .err := by
  intro n
  induction n with
  | zero => intro e s _ h; cases h
  | succ n ih =>
    intro e s hc
    cases e with
    | terminal cs =>
      show terminalEval cs s ≠ .err
      rw [terminalEval_eq]
      rcases terminalLoop cs s with ⟨b, s'⟩
      cases b <;> (intro h; cases h)
    | choice es =>
      rw [Exp.closedIn] at hc
      exact choiceStep_ne_err (fun e he s => ih e s (closedInList_mem hc he)) _ _
    | sequence es =>
      rw [Exp.closedIn] at hc
      exact seqStep_ne_err (fun e he s => ih e s (closedInList_mem hc he)) _ _
    | not e1 =>
      rw [Exp.closedIn] at hc
      show notEval s.pos (evalP g n e1 s) ≠ .err
      rw [notEval_eq]
      cases hr : evalP g n e1 s with
      | ok v s' => cases v <;> (intro h; cases h)
      | err => exact absurd hr (ih e1 s hc)
      | timeout => intro h; cases h
    | repetition e1 =>
      rw [Exp.closedIn] at hc
      exact repStep_ne_err (fun s => ih e1 s hc) _ _ _
    | ruleApplication nm =>
      rw [Exp.closedIn] at hc
      exact ruleStepP_ne_err
        (fun body hl s => ih body s (closed_body hg hl)) hc s

/-- C9: under the grammar invariant that every rule name referenced by a
`RuleApplication` (in the evaluated expression and in every rule body) exists
in the grammar, evaluation never throws, in either matcher version.  In the
model a JS `TypeError` from dereferencing an undefined rule is `Outcome.err`;
every run instead returns a value (`Outcome.ok`, carrying a CST or the
failure value `none`) or exhausts its fuel (`Outcome.timeout`, the model's
rendering of the nonterminating runs a fuel-free JS evaluation would make
diverge). -/
theorem claim9_never_throws :
    ∀ (g : Grammar) (n : Nat) (e : Exp),
      Grammar.closed g = true → Exp.closedIn g e = true →
      (∀ s : StL, evalL g n e s ≠ .err) ∧ (∀ s : StP, evalP g n e s ≠ .err) :=
  fun _ n e hg hc =>
    ⟨fun s => evalL_ne_err hg n e s hc, fun s => evalP_ne_err hg n e s hc⟩

/-- Witness for C9: the example grammar is closed and evaluating its start
rule application throws in neither version. -/
theorem claim9_witness :
    (∀ s : StL, evalL gMul 20 (.ruleApplication "start") s ≠ .err) ∧
    (∀ s : StP, evalP gMul 20 (.ruleApplication "start") s ≠ .err) :=
  claim9_never_throws gMul 20 (.ruleApplication "start") (by decide) (by decide)

/-! ## Cursor-range invariants (C7) -/

theorem charAt_some {inp : List Char} {i : Int} {c : Char}
    (h : charAt inp i = some c) : 0 ≤ i ∧ i + 1 ≤ (inp.length : Int) := by
  rw [charAt] at h
  split_ifs at h with hc
  · exact ⟨hc.1, by omega⟩

theorem InvSt_setPos {lo : Int} {eok : List Char → ε → Prop} {s : St ε}
    (hs : InvSt lo eok s) {p : Int} (h1 : lo ≤ p)
    (h2 : p ≤ (s.input.length : Int)) : InvSt lo eok { s with pos := p } :=
  ⟨h1, h2, hs.2.2⟩

theorem InvSt_setMemo {lo : Int} {eok : List Char → ε → Prop} {s : St ε}
    (hs : InvSt lo eok s) {p : Int} {nm : String} {e : ε}
    (he : eok s.input e) :
    InvSt lo eok { s with memo := setMemo s.memo p nm e } := by
  refine ⟨hs.1, hs.2.1, fun q nm' e' h => ?_⟩
  simp only [setMemo] at h
  split_ifs at h with hq
  · cases h; exact he
  · exact hs.2.2 q nm' e' h

theorem terminalLoop_cons_eq (c : Char) (cs : List Char) (s : St ε) :
    terminalLoop (c :: cs) s =
      if charAt s.input s.pos = some c then
        terminalLoop cs { s with pos := s.pos + 1 }
      else (false, s) := rfl

theorem terminalLoop_spec :
    ∀ (cs : List Char) (s : St ε),
      (terminalLoop cs s).2.input = s.input ∧
      (terminalLoop cs s).2.memo = s.memo ∧
      s.pos ≤ (terminalLoop cs s).2.pos ∧
      (s.pos ≤ (s.input.length : Int) →
        (terminalLoop cs s).2.pos ≤ (s.input.length : Int)) := by
  intro cs
  induction cs with
  | nil => exact fun s => ⟨rfl, rfl, le_refl _, fun h => h⟩
  | cons c cs ih =>
    intro s
    rw [terminalLoop_cons_eq]
    by_cases hc : charAt s.input s.pos = some c
    · rw [if_pos hc]
      obtain ⟨h1, h2, h3, h4⟩ := ih { s with pos := s.pos + 1 }
      have hb := charAt_some hc
      have e1 : ({ s with pos := s.pos + 1 } : St ε).pos = s.pos + 1 := rfl
      have e2 : ({ s with pos := s.pos + 1 } : St ε).input = s.input := rfl
      rw [e1] at h3
      rw [e2] at h4
      rw [e1] at h4
      exact ⟨h1, h2, by omega, fun hp => h4 (by omega)⟩
    · rw [if_neg hc]
      exact ⟨rfl, rfl, le_refl _, fun h => h⟩

theorem choiceStep_inv {lo : Int} {eok : List Char → ε → Prop}
    {ev : Exp → St ε → Outcome (St ε)} (hev : PrInv (InvSt lo eok) ev) :
    ∀ (es : List Exp) (orig : Int) (s : St ε) (v : Option CST) (s' : St ε),
      choiceStep ev es orig s = .ok v s' →
      s'.input = s.input ∧
      (lo ≤ orig → orig ≤ (s.input.length : Int) →
        InvSt lo eok s → InvSt lo eok s') := by
  intro es
  induction es with
  | nil =>
    intro orig s v s' h
    cases h
    exact ⟨rfl, fun _ _ hs => hs⟩
  | cons e es ih =>
    intro orig s v s' h
    rw [choiceStep_cons_eq] at h
    cases hr : ev e { s with pos := orig } with
    | ok v1 s1 =>
      rw [hr] at h
      obtain ⟨hin1, hI1⟩ := hev _ _ _ _ hr
      cases v1 with
      | none =>
        obtain ⟨hin2, hI2⟩ := ih orig s1 v s' h
        refine ⟨hin2.trans hin1, fun hlo hhi hs => ?_⟩
        exact hI2 hlo (by rw [hin1]; exact hhi) (hI1 (InvSt_setPos hs hlo hhi))
      | some c =>
        cases h
        exact ⟨hin1, fun hlo hhi hs => hI1 (InvSt_setPos hs hlo hhi)⟩
    | err => rw [hr] at h; cases h
    | timeout => rw [hr] at h; cases h

theorem seqStep_inv {lo : Int} {eok : List Char → ε → Prop}
    {ev : Exp → St ε → Outcome (St ε)} (hev : PrInv (InvSt lo eok) ev) :
    ∀ (es : List Exp) (s : St ε) (acc : List CST) (v : Option CST) (s' : St ε),
      seqStep ev es s acc = .ok v s' →
      s'.input = s.input ∧ (InvSt lo eok s → InvSt lo eok s') := by
  intro es
  induction es with
  | nil =>
    intro s acc v s' h
    cases h
    exact ⟨rfl, fun hs => hs⟩
  | cons e es ih =>
    intro s acc v s' h
    rw [seqStep_cons_eq] at h
    cases hr : ev e s with
    | ok v1 s1 =>
      rw [hr] at h
      obtain ⟨hin1, hI1⟩ := hev _ _ _ _ hr
      cases v1 with
      | none =>
        cases h
        exact ⟨hin1, hI1⟩
      | some c =>
        obtain ⟨hin2, hI2⟩ := ih s1 _ v s' h
        exact ⟨hin2.trans hin1, fun hs => hI2 (hI1 hs)⟩
    | err => rw [hr] at h; cases h
    | timeout => rw [hr] at h; cases h

theorem repStep_inv {lo : Int} {eok : List Char → ε → Prop}
    {ev : Exp → St ε → Outcome (St ε)} (hev : PrInv (InvSt lo eok) ev) :
    ∀ (k : Nat) (e : Exp) (s : St ε) (acc : List CST) (v : Option CST) (s' : St ε),
      repStep ev k e s acc = .ok v s' →
      s'.input = s.input ∧ (InvSt lo eok s → InvSt lo eok s') := by
  intro k
  induction k with
  | zero => intro e s acc v s' h; cases h
  | succ k ih =>
    intro e s acc v s' h
    rw [repStep_succ_eq] at h
    cases hr : ev e s with
    | ok v1 s1 =>
      rw [hr] at h
      obtain ⟨hin1, hI1⟩ := hev _ _ _ _ hr
      cases v1 with
      | none =>
        cases h
        refine ⟨hin1, fun hs => ?_⟩
        have h1 := hI1 hs
        exact InvSt_setPos h1 hs.1 (by rw [hin1]; exact hs.2.1)
      | some c =>
        obtain ⟨hin2, hI2⟩ := ih e s1 _ v s' h
        exact ⟨hin2.trans hin1, fun hs => hI2 (hI1 hs)⟩
    | err => rw [hr] at h; cases h
    | timeout => rw [hr] at h; cases h

theorem growStep_inv {ev : Exp → StL → Outcome StL}
    (hev : PrInv (InvSt (-1) entryOkL) ev) :
    ∀ (k : Nat) (name : String) (body : Exp) (origPos : Int) (cst : Option CST)
      (s : StL) (v : Option CST) (s' : StL),
      growStep ev k name body origPos cst s = .ok v s' →
      s'.input = s.input ∧
      (-1 ≤ origPos → origPos ≤ (s.input.length : Int) →
        InvSt (-1) entryOkL s → InvSt (-1) entryOkL s') := by
  intro k
  induction k with
  | zero => intro name body origPos cst s v s' h; cases h
  | succ k ih =>
    intro name body origPos cst s v s' h
    rw [growStep_succ_eq] at h
    cases hr : ev body (growReset s name origPos cst) with
    | ok v1 s1 =>
      rw [hr] at h
      obtain ⟨hin1, hI1⟩ := hev _ _ _ _ hr
      have hgrow : ∀ hs : InvSt (-1) entryOkL s, -1 ≤ origPos →
          origPos ≤ (s.input.length : Int) →
          InvSt (-1) entryOkL (growReset s name origPos cst) := by
        intro hs hlo hhi
        exact InvSt_setPos (InvSt_setMemo hs ⟨hs.1, hs.2.1⟩) hlo hhi
      change (if v1.isSome ∧ s.pos < s1.pos then growStep ev k name body origPos v1 s1
              else Outcome.ok cst { s1 with pos := s.pos }) = Outcome.ok v s' at h
      by_cases hcond : v1.isSome ∧ s.pos < s1.pos
      · rw [if_pos hcond] at h
        obtain ⟨hin2, hI2⟩ := ih name body origPos v1 s1 v s' h
        refine ⟨hin2.trans hin1, fun hlo hhi hs => ?_⟩
        exact hI2 hlo (by rw [hin1]; exact hhi) (hI1 (hgrow hs hlo hhi))
      · rw [if_neg hcond] at h
        cases h
        refine ⟨hin1, fun hlo hhi hs => ?_⟩
        have h1 := hI1 (hgrow hs hlo hhi)
        exact InvSt_setPos h1 hs.1 (by rw [hin1]; exact hs.2.1)
    | err => rw [hr] at h; cases h
    | timeout => rw [hr] at h; cases h

theorem ruleStepL_inv {g : Grammar} {ev : Exp → StL → Outcome StL}
    (hev : PrInv (InvSt (-1) entryOkL) ev) :
    ∀ (k : Nat) (name : String) (s : StL) (v : Option CST) (s' : StL),
      ruleStepL g ev k name s = .ok v s' →
      s'.input = s.input ∧ (InvSt (-1) entryOkL s → InvSt (-1) entryOkL s') := by
  intro k name s v s' h
  rw [ruleStepL] at h
  cases hm : s.memo s.pos name with
  | some entry =>
    rw [hm] at h
    cases h
    refine ⟨rfl, fun hs => ?_⟩
    have he := hs.2.2 _ _ _ hm
    by_cases hf : entry.isFailer = true
    · simp only [hf, if_true]
      exact InvSt_setMemo (InvSt_setPos hs he.1 he.2) ⟨he.1, he.2⟩
    · simp only [Bool.not_eq_true] at hf
      simp only [hf, Bool.false_eq_true, if_false]
      exact InvSt_setPos hs he.1 he.2
  | none =>
    rw [hm] at h
    cases hl : List.lookup name g with
    | none => rw [hl] at h; cases h
    | some body =>
      rw [hl] at h
      change (match ev body { s with memo := setMemo s.memo s.pos name lrFailer } with
              | .ok cst s2 =>
                if usedFlag s2.memo s.pos name = true then
                  growStep ev k name body s.pos cst
                    { s2 with memo := setMemo s2.memo s.pos name ⟨cst, s2.pos, false, false⟩ }
                else
                  Outcome.ok cst
                    { s2 with memo := setMemo s2.memo s.pos name ⟨cst, s2.pos, false, false⟩ }
              | r => r) = Outcome.ok v s' at h
      have hInv1 : InvSt (-1) entryOkL s →
          InvSt (-1) entryOkL { s with memo := setMemo s.memo s.pos name lrFailer } := by
        intro hs
        refine InvSt_setMemo hs ⟨le_refl _, ?_⟩
        show (-1 : Int) ≤ (s.input.length : Int)
        have h0 : (0 : Int) ≤ (s.input.length : Int) := Int.natCast_nonneg _
        omega
      cases hr : ev body { s with memo := setMemo s.memo s.pos name lrFailer } with
      | ok v1 s2 =>
        rw [hr] at h
        obtain ⟨hin1, hI1⟩ := hev _ _ _ _ hr
        have hin1' : s2.input = s.input := hin1
        change (if usedFlag s2.memo s.pos name = true then
                  growStep ev k name body s.pos v1
                    { s2 with memo := setMemo s2.memo s.pos name ⟨v1, s2.pos, false, false⟩ }
                else
                  Outcome.ok v1
                    { s2 with memo := setMemo s2.memo s.pos name ⟨v1, s2.pos, false, false⟩ }) =
            Outcome.ok v s' at h
      -- the seed result entry is in range because the body's final state is
        have hInv3 : InvSt (-1) entryOkL s →
            InvSt (-1) entryOkL
              { s2 with memo := setMemo s2.memo s.pos name ⟨v1, s2.pos, false, false⟩ } := by
          intro hs
          have hs2 := hI1 (hInv1 hs)
          exact InvSt_setMemo hs2 ⟨hs2.1, hs2.2.1⟩
        by_cases hu : usedFlag s2.memo s.pos name = true
        · rw [if_pos hu] at h
          obtain ⟨hin2, hI2⟩ := growStep_inv hev _ _ _ _ _ _ _ _ h
          have hin2' : s'.input = s2.input := hin2
          refine ⟨hin2'.trans hin1', fun hs => ?_⟩
          refine hI2 hs.1 ?_ (hInv3 hs)
          show s.pos ≤ (s2.input.length : Int)
          rw [hin1']
          exact hs.2.1
        · rw [if_neg hu] at h
          cases h
          exact ⟨hin1', hInv3⟩
      | err => rw [hr] at h; cases h
      | timeout => rw [hr] at h; cases h

theorem ruleStepP_inv {g : Grammar} {ev : Exp → StP → Outcome StP}
    (hev : PrInv (InvSt 0 entryOkP) ev) :
    ∀ (name : String) (s : StP) (v : Option CST) (s' : StP),
      ruleStepP g ev name s = .ok v s' →
      s'.input = s.input ∧ (InvSt 0 entryOkP s → InvSt 0 entryOkP s') := by
  intro name s v s' h
  rw [ruleStepP] at h
  cases hm : s.memo s.pos name with
  | some entry =>
    rw [hm] at h
    cases entry with
    | succ c q =>
      cases h
      refine ⟨rfl, fun hs => ?_⟩
      have he := hs.2.2 _ _ _ hm
      exact InvSt_setPos hs he.1 he.2
    | fail =>
      cases h
      exact ⟨rfl, fun hs => hs⟩
  | none =>
    rw [hm] at h
    cases hl : List.lookup name g with
    | none => rw [hl] at h; cases h
    | some body =>
      rw [hl] at h
      change (match ev body s with
              | .ok cst s2 =>
                Outcome.ok cst
                  { s2 with memo := setMemo s2.memo s.pos name (pentryOf cst s2.pos) }
              | r => r) = Outcome.ok v s' at h
      cases hr : ev body s with
      | ok v1 s2 =>
        rw [hr] at h
        cases h
        obtain ⟨hin1, hI1⟩ := hev _ _ _ _ hr
        refine ⟨hin1, fun hs => ?_⟩
        have hs2 := hI1 hs
        cases v with
        | none => exact InvSt_setMemo hs2 trivial
        | some c => exact InvSt_setMemo hs2 ⟨hs2.1, hs2.2.1⟩
      | err => rw [hr] at h; cases h
      | timeout => rw [hr] at h; cases h

theorem evalL_inv {g : Grammar} :
    ∀ (n : Nat) (e : Exp) (s : StL) (v : Option CST) (s' : StL),
      evalL g n e s = .ok v s' →
      s'.input = s.input ∧ (InvSt (-1) entryOkL s → InvSt (-1) entryOkL s') := by
  intro n
  induction n with
  | zero => intro e s v s' h; cases h
  | succ n ih =>
    have hev : PrInv (InvSt (-1) entryOkL) (evalL g n) :=
      fun e s v s' h => ih e s v s' h
    intro e s v s' h
    cases e with
    | terminal cs =>
      rw [show evalL g (n + 1) (.terminal cs) s = terminalEval cs s from rfl,
          terminalEval_eq] at h
      obtain ⟨hts1, hts2, hts3, hts4⟩ := terminalLoop_spec cs s
      cases htl : terminalLoop cs s with
      | mk b s1 =>
        rw [htl] at h hts1 hts2 hts3 hts4
        have e1 : s1.input = s.input := hts1
        have e2 : s1.memo = s.memo := hts2
        have e3 : s.pos ≤ s1.pos := hts3
        have e4 : s.pos ≤ (s.input.length : Int) → s1.pos ≤ (s.input.length : Int) := hts4
        cases b <;> cases h <;>
          refine ⟨e1, fun hs => ⟨le_trans hs.1 e3, by rw [e1]; exact e4 hs.2.1,
            fun p nm en hme => by rw [e1]; exact hs.2.2 p nm en (by rw [← e2]; exact hme)⟩⟩
    | choice es =>
      obtain ⟨hin, hI⟩ := choiceStep_inv hev es s.pos s v s' h
      exact ⟨hin, fun hs => hI hs.1 hs.2.1 hs⟩
    | sequence es => exact seqStep_inv hev es s [] v s' h
    | not e1 =>
      rw [evalL_not_eq, notEval_eq] at h
      cases hr : evalL g n e1 s with
      | ok v1 s1 =>
        rw [hr] at h
        obtain ⟨hin1, hI1⟩ := hev _ _ _ _ hr
        cases v1 with
        | none =>
          cases h
          exact ⟨hin1, fun hs =>
            InvSt_setPos (hI1 hs) hs.1 (by rw [show s1.input = s.input from hin1]; exact hs.2.1)⟩
        | some c =>
          cases h
          exact ⟨hin1, hI1⟩
      | err => rw [hr] at h; cases h
      | timeout => rw [hr] at h; cases h
    | repetition e1 => exact repStep_inv hev (n + 1) e1 s [] v s' h
    | ruleApplication nm => exact ruleStepL_inv hev (n + 1) nm s v s' h

theorem evalP_inv {g : Grammar} :
    ∀ (n : Nat) (e : Exp) (s : StP) (v : Option CST) (s' : StP),
      evalP g n e s = .ok v s' →
      s'.input = s.input ∧ (InvSt 0 entryOkP s → InvSt 0 entryOkP s') := by
  intro n
  induction n with
  | zero => intro e s v s' h; cases h
  | succ n ih =>
    have hev : PrInv (InvSt 0 entryOkP) (evalP g n) :=
      fun e s v s' h => ih e s v s' h
    intro e s v s' h
    cases e with
    | terminal cs =>
      rw [show evalP g (n + 1) (.terminal cs) s = terminalEval cs s from rfl,
          terminalEval_eq] at h
      obtain ⟨hts1, hts2, hts3, hts4⟩ := terminalLoop_spec cs s
      cases htl : terminalLoop cs s with
      | mk b s1 =>
        rw [htl] at h hts1 hts2 hts3 hts4
        have e1 : s1.input = s.input := hts1
        have e2 : s1.memo = s.memo := hts2
        have e3 : s.pos ≤ s1.pos := hts3
        have e4 : s.pos ≤ (s.input.length : Int) → s1.pos ≤ (s.input.length : Int) := hts4
        cases b <;> cases h <;>
          refine ⟨e1, fun hs => ⟨le_trans hs.1 e3, by rw [e1]; exact e4 hs.2.1,
            fun p nm en hme => by rw [e1]; exact hs.2.2 p nm en (by rw [← e2]; exact hme)⟩⟩
    | choice es =>
      obtain ⟨hin, hI⟩ := choiceStep_inv hev es s.pos s v s' h
      exact ⟨hin, fun hs => hI hs.1 hs.2.1 hs⟩
    | sequence es => exact seqStep_inv hev es s [] v s' h
    | not e1 =>
      rw [evalP_not_eq, notEval_eq] at h
      cases hr : evalP g n e1 s with
      | ok v1 s1 =>
        rw [hr] at h
        obtain ⟨hin1, hI1⟩ := hev _ _ _ _ hr
        cases v1 with
        | none =>
          cases h
          exact ⟨hin1, fun hs =>
            InvSt_setPos (hI1 hs) hs.1 (by rw [show s1.input = s.input from hin1]; exact hs.2.1)⟩
        | some c =>
          cases h
          exact ⟨hin1, hI1⟩
      | err => rw [hr] at h; cases h
      | timeout => rw [hr] at h; cases h
    | repetition e1 => exact repStep_inv hev (n + 1) e1 s [] v s' h
    | ruleApplication nm => exact ruleStepP_inv hev nm s v s' h

/-- C7 counterexample: the claim's range `[0, length]` is violated by the
left-recursion marker.  In the state reached during `match` of the example
grammar on `"pi+pi+x"` right when the left-recursive reentry of `mulExp`
occurs (failers installed for `start` and `mulExp` at position `0`, cursor at
`0`), evaluating `RuleApplication("mulExp")` consumes the marker:
`useMemoizedResult` sets `pos` to the marker's `nextPos`, which is `-1` —
outside `[0, length]`. -/
theorem claim7_counterexample :
    (evalL gMul 1 (.ruleApplication "mulExp")
      (⟨['p', 'i', '+', 'p', 'i', '+', 'x'], 0, fun p nm =>
        if p = 0 ∧ (nm = "start" ∨ nm = "mulExp") then some lrFailer
        else none⟩ : StL)).pos? = some (-1) ∧
    (evalL gMul 1 (.ruleApplication "mulExp")
      (⟨['p', 'i', '+', 'p', 'i', '+', 'x'], 0, fun p nm =>
        if p = 0 ∧ (nm = "start" ∨ nm = "mulExp") then some lrFailer
        else none⟩ : StL)).val? = some none ∧
    (-1 : Int) < 0 :=
  ⟨rfl, rfl, by decide⟩

/-- C7 (amended): the cursor of the left-recursion-capable matcher stays in
the range `[-1, length]` — one below the claimed `[0, length]`, because
consuming the left-recursion marker sets the cursor to the marker's `nextPos`
of `-1`; every memoized `nextPos` also lies in `[-1, length]`.  In the plain
packrat matcher the cursor and all cached next-positions do stay within
`[0, length]`.  Both invariants hold at the fresh state created by `match`
and are preserved by every returning evaluation step. -/
theorem claim7_cursor_range :
    (∀ (g : Grammar) (n : Nat) (e : Exp) (s s' : StL) (v : Option CST),
      evalL g n e s = .ok v s' → InvSt (-1) entryOkL s →
        (-1 ≤ s'.pos ∧ s'.pos ≤ (s'.input.length : Int)) ∧
        s'.input = s.input ∧ InvSt (-1) entryOkL s') ∧
    (∀ (g : Grammar) (n : Nat) (e : Exp) (s s' : StP) (v : Option CST),
      evalP g n e s = .ok v s' → InvSt 0 entryOkP s →
        (0 ≤ s'.pos ∧ s'.pos ≤ (s'.input.length : Int)) ∧
        s'.input = s.input ∧ InvSt 0 entryOkP s') ∧
    (∀ input : List Char,
      InvSt (-1) entryOkL (initSt input : StL) ∧
      InvSt 0 entryOkP (initSt input : StP)) := by
  refine ⟨?_, ?_, ?_⟩
  · intro g n e s s' v h hs
    obtain ⟨hin, hI⟩ := evalL_inv n e s v s' h
    have hs' := hI hs
    exact ⟨⟨hs'.1, hs'.2.1⟩, hin, hs'⟩
  · intro g n e s s' v h hs
    obtain ⟨hin, hI⟩ := evalP_inv n e s v s' h
    have hs' := hI hs
    exact ⟨⟨hs'.1, hs'.2.1⟩, hin, hs'⟩
  · intro input
    constructor
    · exact ⟨(by decide : (-1 : Int) ≤ 0), Int.natCast_nonneg _,
        fun p nm e h => by cases h⟩
    · exact ⟨le_refl _, Int.natCast_nonneg _, fun p nm e h => by cases h⟩

/-- Witness for C7 (amended): a full evaluation of the start rule of the
example grammar on `"x"` from the fresh state ends with the cursor at `1`,
inside `[-1, 1]`, and the invariant holds at the final state. -/
theorem claim7_witness :
    (-1 ≤ ((evalL gMul 20 (.ruleApplication "start") (initSt ['x'])).stOr
        (initSt ['x'])).pos ∧
      ((evalL gMul 20 (.ruleApplication "start") (initSt ['x'])).stOr
        (initSt ['x'])).pos ≤
        ((((evalL gMul 20 (.ruleApplication "start") (initSt ['x'])).stOr
          (initSt ['x'])).input.length : Int))) ∧
    ((evalL gMul 20 (.ruleApplication "start") (initSt ['x'])).stOr
      (initSt ['x'])).input = ['x'] :=
  ⟨(claim7_cursor_range.1 gMul 20 (.ruleApplication "start") (initSt ['x'])
      ((evalL gMul 20 (.ruleApplication "start") (initSt ['x'])).stOr
        (initSt ['x'])) (some (.str ['x'])) rfl
      (claim7_cursor_range.2.2 ['x']).1).1,
   (claim7_cursor_range.1 gMul 20 (.ruleApplication "start") (initSt ['x'])
      ((evalL gMul 20 (.ruleApplication "start") (initSt ['x'])).stOr
        (initSt ['x'])) (some (.str ['x'])) rfl
      (claim7_cursor_range.2.2 ['x']).1).2.1⟩

/-- C1: termination and result of the seed-growing loop.  The claim's
hypothesis — each re-application of the left-recursive rule's body against the
previous best either strictly advances the cursor or fails/stalls, with each
re-application returning — is the trajectory predicate `GrowCond`.  Under
it, the loop of `RuleApplication.eval` (modelled by `growStep`):
terminates — any iteration fuel `k ≥ j` suffices, and the number of
iterations `j` is bounded by `input length - seed end + 1`, since the
recorded best strictly increases and is bounded by the input length; stops
exactly at the first re-evaluation that fails or does not advance the
cursor strictly past the previously recorded best (the `exit` case of
`GrowCond`); returns the last successful (maximal) result `vfin`, reachable
by the chain of strictly-advancing re-applications; and sets the cursor to
that final accepted result's recorded next-position `pfin`. -/
theorem claim1_leftrec_growth :
    ∀ (g : Grammar) (n : Nat) (name : String) (body : Exp) (origPos : Int)
      (cst vfin : Option CST) (s : StL) (pfin : Int) (j : Nat),
      GrowCond g n name body origPos cst s vfin pfin j →
      (∀ k, j ≤ k →
        (growStep (evalL g n) k name body origPos cst s).val? = some vfin ∧
        (growStep (evalL g n) k name body origPos cst s).pos? = some pfin) ∧
      (j : Int) ≤ (s.input.length : Int) - s.pos + 1 := by
  intro g n name body origPos cst vfin s pfin j hgc
  induction hgc with
  | exit cst s v' s' heval hstop hbound =>
    constructor
    · intro k hk
      obtain ⟨k', rfl⟩ : ∃ k', k = k' + 1 := ⟨k - 1, by omega⟩
      rw [growStep_succ_eq, heval]
      have hcond : ¬(v'.isSome ∧ s.pos < s'.pos) := by
        rcases hstop with h | h
        · rintro ⟨h1, -⟩; rw [h] at h1; cases h1
        · rintro ⟨-, h2⟩; exact absurd h2 (not_lt.mpr h)
      change (if v'.isSome ∧ s.pos < s'.pos then
                growStep (evalL g n) k' name body origPos v' s'
              else Outcome.ok cst { s' with pos := s.pos }).val? = some cst ∧
             (if v'.isSome ∧ s.pos < s'.pos then
                growStep (evalL g n) k' name body origPos v' s'
              else Outcome.ok cst { s' with pos := s.pos }).pos? = some s.pos
      rw [if_neg hcond]
      exact ⟨rfl, rfl⟩
    · have : (0 : Int) ≤ (s.input.length : Int) - s.pos + 1 := by omega
      omega
  | step cst s c s' vfin pfin j heval hadv hbound hinp hgc ih =>
    constructor
    · intro k hk
      obtain ⟨k', rfl⟩ : ∃ k', k = k' + 1 := ⟨k - 1, by omega⟩
      rw [growStep_succ_eq, heval]
      have hcond : (some c : Option CST).isSome ∧ s.pos < s'.pos := ⟨rfl, hadv⟩
      change (if (some c : Option CST).isSome ∧ s.pos < s'.pos then
                growStep (evalL g n) k' name body origPos (some c) s'
              else Outcome.ok cst { s' with pos := s.pos }).val? = some vfin ∧
             (if (some c : Option CST).isSome ∧ s.pos < s'.pos then
                growStep (evalL g n) k' name body origPos (some c) s'
              else Outcome.ok cst { s' with pos := s.pos }).pos? = some pfin
      rw [if_pos hcond]
      exact ih.1 k' (by omega)
    · have hb := ih.2
      rw [hinp] at hb
      omega

/-- Witness for C1: the example grammar's left-recursive rule `mulExp` on
input `"pi+pi+x"`, starting from the seed `"pi"` (end position `2`): the
loop grows the seed twice (to positions `5` and `7`), the third re-evaluation
returns a success that does not advance past `7`, and `growStep` returns the
maximal left-associative CST with the cursor at `7`. -/
theorem claim1_witness :
    (growStep (evalL gMul 20) 3 "mulExp" mulBody 0 (some (.str ['p', 'i']))
      (⟨['p', 'i', '+', 'p', 'i', '+', 'x'], 2, fun _ _ => none⟩ : StL)).val? =
      some (some (.list
        [ .list [.str ['p', 'i'], .str ['+'], .str ['p', 'i']]
        , .str ['+'], .str ['x'] ])) ∧
    (growStep (evalL gMul 20) 3 "mulExp" mulBody 0 (some (.str ['p', 'i']))
      (⟨['p', 'i', '+', 'p', 'i', '+', 'x'], 2, fun _ _ => none⟩ : StL)).pos? =
      some 7 := by
  have hgc : GrowCond gMul 20 "mulExp" mulBody 0 (some (.str ['p', 'i']))
      (⟨['p', 'i', '+', 'p', 'i', '+', 'x'], 2, fun _ _ => none⟩ : StL)
      (some (.list
        [ .list [.str ['p', 'i'], .str ['+'], .str ['p', 'i']]
        , .str ['+'], .str ['x'] ])) 7 3 :=
    GrowCond.step _ _ (.list [.str ['p', 'i'], .str ['+'], .str ['p', 'i']]) _
      _ _ _ rfl (by decide) (by decide) (by decide)
      (GrowCond.step _ _ (.list
          [ .list [.str ['p', 'i'], .str ['+'], .str ['p', 'i']]
          , .str ['+'], .str ['x'] ]) _ _ _ _ rfl (by decide) (by decide)
        (by decide)
        (GrowCond.exit _ _ (some (.str ['p', 'i'])) _ rfl
          (Or.inr (by decide)) (by decide)))
  have h := claim1_leftrec_growth gMul 20 "mulExp" mulBody 0
    (some (.str ['p', 'i'])) _ _ 7 3 hgc
  exact h.1 3 le_rfl

/-! ## Memoization transparency (C3): preservation lemmas -/

theorem StEq {s t : St ε} (h1 : s.input = t.input) (h2 : s.pos = t.pos)
    (h3 : s.memo = t.memo) : s = t := by
  cases s; cases t
  cases h1; cases h2; cases h3
  rfl

theorem setMemo_del {m : Int → String → Option ε} {p : Int} {nm : String}
    (hm : m p nm = none) (u : ε) : delMemo (setMemo m p nm u) p nm = m := by
  funext q nm'
  simp only [delMemo, setMemo]
  split_ifs with hq
  · rw [← hm, hq.1, hq.2]
  · rfl

theorem choiceStep_memo {ev : Exp → St ε → Outcome (St ε)} (hev : PrMemo ev) :
    ∀ (es : List Exp) (orig : Int) (s : St ε) (v : Option CST) (s' : St ε),
      choiceStep ev es orig s = .ok v s' →
      s'.input = s.input ∧ s'.memo = s.memo := by
  intro es
  induction es with
  | nil => intro orig s v s' h; cases h; exact ⟨rfl, rfl⟩
  | cons e es ih =>
    intro orig s v s' h
    rw [choiceStep_cons_eq] at h
    cases hr : ev e { s with pos := orig } with
    | ok v1 s1 =>
      rw [hr] at h
      obtain ⟨hi1, hm1⟩ := hev _ _ _ _ hr
      cases v1 with
      | none =>
        obtain ⟨hi2, hm2⟩ := ih orig s1 v s' h
        exact ⟨hi2.trans hi1, hm2.trans hm1⟩
      | some c => cases h; exact ⟨hi1, hm1⟩
    | err => rw [hr] at h; cases h
    | timeout => rw [hr] at h; cases h

theorem seqStep_memo {ev : Exp → St ε → Outcome (St ε)} (hev : PrMemo ev) :
    ∀ (es : List Exp) (s : St ε) (acc : List CST) (v : Option CST) (s' : St ε),
      seqStep ev es s acc = .ok v s' →
      s'.input = s.input ∧ s'.memo = s.memo := by
  intro es
  induction es with
  | nil => intro s acc v s' h; cases h; exact ⟨rfl, rfl⟩
  | cons e es ih =>
    intro s acc v s' h
    rw [seqStep_cons_eq] at h
    cases hr : ev e s with
    | ok v1 s1 =>
      rw [hr] at h
      obtain ⟨hi1, hm1⟩ := hev _ _ _ _ hr
      cases v1 with
      | none => cases h; exact ⟨hi1, hm1⟩
      | some c =>
        obtain ⟨hi2, hm2⟩ := ih s1 _ v s' h
        exact ⟨hi2.trans hi1, hm2.trans hm1⟩
    | err => rw [hr] at h; cases h
    | timeout => rw [hr] at h; cases h

theorem repStep_memo {ev : Exp → St ε → Outcome (St ε)} (hev : PrMemo ev) :
    ∀ (k : Nat) (e : Exp) (s : St ε) (acc : List CST) (v : Option CST) (s' : St ε),
      repStep ev k e s acc = .ok v s' →
      s'.input = s.input ∧ s'.memo = s.memo := by
  intro k
  induction k with
  | zero => intro e s acc v s' h; cases h
  | succ k ih =>
    intro e s acc v s' h
    rw [repStep_succ_eq] at h
    cases hr : ev e s with
    | ok v1 s1 =>
      rw [hr] at h
      obtain ⟨hi1, hm1⟩ := hev _ _ _ _ hr
      cases v1 with
      | none => cases h; exact ⟨hi1, hm1⟩
      | some c =>
        obtain ⟨hi2, hm2⟩ := ih e s1 _ v s' h
        exact ⟨hi2.trans hi1, hm2.trans hm1⟩
    | err => rw [hr] at h; cases h
    | timeout => rw [hr] at h; cases h

theorem evalNoMemo_pres (g : Grammar) : ∀ n, PrMemo (evalNoMemo g n) := by
  intro n
  induction n with
  | zero => intro e s v s' h; cases h
  | succ n ih =>
    intro e s v s' h
    cases e with
    | terminal cs =>
      rw [show evalNoMemo g (n + 1) (.terminal cs) s = terminalEval cs s from rfl,
          terminalEval_eq] at h
      obtain ⟨hts1, hts2, -, -⟩ := terminalLoop_spec cs s
      cases htl : terminalLoop cs s with
      | mk b s1 =>
        rw [htl] at h hts1 hts2
        cases b <;> cases h <;> exact ⟨hts1, hts2⟩
    | choice es => exact choiceStep_memo ih es s.pos s v s' h
    | sequence es => exact seqStep_memo ih es s [] v s' h
    | not e1 =>
      rw [show evalNoMemo g (n + 1) (.not e1) s = notEval s.pos (evalNoMemo g n e1 s) from rfl,
          notEval_eq] at h
      cases hr : evalNoMemo g n e1 s with
      | ok v1 s1 =>
        rw [hr] at h
        obtain ⟨hi1, hm1⟩ := ih _ _ _ _ hr
        cases v1 with
        | none => cases h; exact ⟨hi1, hm1⟩
        | some c => cases h; exact ⟨hi1, hm1⟩
      | err => rw [hr] at h; cases h
      | timeout => rw [hr] at h; cases h
    | repetition e1 => exact repStep_memo ih (n + 1) e1 s [] v s' h
    | ruleApplication nm =>
      change (match List.lookup nm g with
              | none => Outcome.err
              | some body => evalNoMemo g n body s) = Outcome.ok v s' at h
      cases hl : List.lookup nm g with
      | none => rw [hl] at h; cases h
      | some body => rw [hl] at h; exact ih body s v s' h

theorem evalChk_pres (g : Grammar) : ∀ n, PrMemo (evalChk g n) := by
  intro n
  induction n with
  | zero => intro e s v s' h; cases h
  | succ n ih =>
    intro e s v s' h
    cases e with
    | terminal cs =>
      rw [show evalChk g (n + 1) (.terminal cs) s = terminalEval cs s from rfl,
          terminalEval_eq] at h
      obtain ⟨hts1, hts2, -, -⟩ := terminalLoop_spec cs s
      cases htl : terminalLoop cs s with
      | mk b s1 =>
        rw [htl] at h hts1 hts2
        cases b <;> cases h <;> exact ⟨hts1, hts2⟩
    | choice es => exact choiceStep_memo ih es s.pos s v s' h
    | sequence es => exact seqStep_memo ih es s [] v s' h
    | not e1 =>
      rw [show evalChk g (n + 1) (.not e1) s = notEval s.pos (evalChk g n e1 s) from rfl,
          notEval_eq] at h
      cases hr : evalChk g n e1 s with
      | ok v1 s1 =>
        rw [hr] at h
        obtain ⟨hi1, hm1⟩ := ih _ _ _ _ hr
        cases v1 with
        | none => cases h; exact ⟨hi1, hm1⟩
        | some c => cases h; exact ⟨hi1, hm1⟩
      | err => rw [hr] at h; cases h
      | timeout => rw [hr] at h; cases h
    | repetition e1 => exact repStep_memo ih (n + 1) e1 s [] v s' h
    | ruleApplication nm =>
      show s'.input = s.input ∧ s'.memo = s.memo
      have h' : ruleStepChk g (evalChk g n) nm s = .ok v s' := h
      rw [ruleStepChk] at h'
      cases hm : s.memo s.pos nm with
      | some u => rw [hm] at h'; cases h'
      | none =>
        rw [hm] at h'
        cases hl : List.lookup nm g with
        | none => rw [hl] at h'; cases h'
        | some body =>
          rw [hl] at h'
          change (match evalChk g n body { s with memo := setMemo s.memo s.pos nm () } with
                  | .ok cst t => Outcome.ok cst { t with memo := delMemo t.memo s.pos nm }
                  | r => r) = Outcome.ok v s' at h'
          cases hr : evalChk g n body { s with memo := setMemo s.memo s.pos nm () } with
          | ok cst t =>
            rw [hr] at h'
            cases h'
            obtain ⟨hi1, hm1⟩ := ih _ _ _ _ hr
            refine ⟨hi1, ?_⟩
            show delMemo t.memo s.pos nm = s.memo
            rw [show t.memo = setMemo s.memo s.pos nm () from hm1]
            exact setMemo_del hm ()
          | err => rw [hr] at h'; cases h'
          | timeout => rw [hr] at h'; cases h'

/-! ## Memoization transparency (C3): generic simulation lemmas -/

theorem terminalLoop_bp :
    ∀ (cs : List Char) (s₁ : St ε₁) (s₂ : St ε₂),
      s₁.pos = s₂.pos → s₁.input = s₂.input →
      (terminalLoop cs s₁).1 = (terminalLoop cs s₂).1 ∧
      (terminalLoop cs s₁).2.pos = (terminalLoop cs s₂).2.pos := by
  intro cs
  induction cs with
  | nil => intro s₁ s₂ hp _; exact ⟨rfl, hp⟩
  | cons c cs ih =>
    intro s₁ s₂ hp hin
    rw [terminalLoop_cons_eq, terminalLoop_cons_eq]
    rw [show charAt s₂.input s₂.pos = charAt s₁.input s₁.pos by rw [hp, hin]]
    by_cases hc : charAt s₁.input s₁.pos = some c
    · rw [if_pos hc, if_pos hc]
      exact ih _ _ (show s₁.pos + 1 = s₂.pos + 1 by rw [hp]) hin
    · rw [if_neg hc, if_neg hc]
      exact ⟨rfl, hp⟩

theorem terminal_sim {MR : St ε₁ → St ε₂ → Prop} (hMR : PosFree MR) :
    ∀ (cs : List Char) (s₁ : St ε₁) (s₂ : St ε₂),
      s₁.pos = s₂.pos → s₁.input = s₂.input → MR s₁ s₂ →
      SimR MR (terminalEval cs s₁) (terminalEval cs s₂) := by
  intro cs s₁ s₂ hp hin hMRs v t₁ h
  rw [terminalEval_eq] at h
  rw [terminalEval_eq]
  obtain ⟨hb, hpos⟩ := terminalLoop_bp cs s₁ s₂ hp hin
  obtain ⟨hi1, hm1, -, -⟩ := terminalLoop_spec cs s₁
  obtain ⟨hi2, hm2, -, -⟩ := terminalLoop_spec cs s₂
  cases htl1 : terminalLoop cs s₁ with
  | mk b₁ t₁' =>
    cases htl2 : terminalLoop cs s₂ with
    | mk b₂ t₂' =>
      rw [htl1] at h hb hpos hi1 hm1
      rw [htl2] at hb hpos hi2 hm2
      have hb' : b₁ = b₂ := hb
      have hpos' : t₁'.pos = t₂'.pos := hpos
      have he₁ : t₁' = { s₁ with pos := t₁'.pos } := StEq hi1 rfl hm1
      have he₂ : t₂' = { s₂ with pos := t₂'.pos } := StEq hi2 rfl hm2
      have hMR' : MR t₁' t₂' := by
        rw [he₁, he₂]; exact hMR _ _ _ _ hMRs
      subst hb'
      cases b₁ with
      | true =>
        cases h
        exact ⟨t₂', rfl, hMR', fun _ => hpos'.symm⟩
      | false =>
        cases h
        exact ⟨t₂', rfl, hMR', fun hne => absurd rfl hne⟩

theorem not_sim {MR : St ε₁ → St ε₂ → Prop} (hMR : PosFree MR)
    {r₁ : Outcome (St ε₁)} {r₂ : Outcome (St ε₂)} (hsim : SimR MR r₁ r₂)
    {p₁ p₂ : Int} (hp : p₁ = p₂) :
    SimR MR (notEval p₁ r₁) (notEval p₂ r₂) := by
  intro v t₁ h
  cases hr1 : r₁ with
  | ok v1 t₁' =>
    rw [hr1] at h
    obtain ⟨t₂', hr2, hMRs, hposc⟩ := hsim v1 t₁' hr1
    rw [hr2]
    cases v1 with
    | none =>
      cases h
      exact ⟨{ t₂' with pos := p₂ }, rfl, hMR _ _ _ _ hMRs,
        fun _ => show p₂ = p₁ from hp.symm⟩
    | some c =>
      cases h
      exact ⟨t₂', rfl, hMRs, fun hne => absurd rfl hne⟩
  | err => rw [hr1] at h; cases h
  | timeout => rw [hr1] at h; cases h

theorem choiceStep_sim {MR : St ε₁ → St ε₂ → Prop} (hMR : PosFree MR)
    {ev₁ : Exp → St ε₁ → Outcome (St ε₁)} {ev₂ : Exp → St ε₂ → Outcome (St ε₂)}
    (hev : EvRel MR ev₁ ev₂) :
    ∀ (es : List Exp) (orig : Int) (s₁ : St ε₁) (s₂ : St ε₂), MR s₁ s₂ →
      SimR MR (choiceStep ev₁ es orig s₁) (choiceStep ev₂ es orig s₂) := by
  intro es
  induction es with
  | nil =>
    intro orig s₁ s₂ hMRs v t₁ h
    cases h
    exact ⟨s₂, rfl, hMRs, fun hne => absurd rfl hne⟩
  | cons e es ih =>
    intro orig s₁ s₂ hMRs v t₁ h
    rw [choiceStep_cons_eq] at h
    rw [choiceStep_cons_eq]
    have hstep := hev e { s₁ with pos := orig } { s₂ with pos := orig } rfl
      (hMR _ _ _ _ hMRs)
    cases hr1 : ev₁ e { s₁ with pos := orig } with
    | ok v1 t₁' =>
      rw [hr1] at h
      obtain ⟨t₂', hr2, hMRs', hposc⟩ := hstep v1 t₁' hr1
      rw [hr2]
      cases v1 with
      | none => exact ih orig t₁' t₂' hMRs' v t₁ h
      | some c =>
        cases h
        exact ⟨t₂', rfl, hMRs', hposc⟩
    | err => rw [hr1] at h; cases h
    | timeout => rw [hr1] at h; cases h

theorem seqStep_sim {MR : St ε₁ → St ε₂ → Prop}
    {ev₁ : Exp → St ε₁ → Outcome (St ε₁)} {ev₂ : Exp → St ε₂ → Outcome (St ε₂)}
    (hev : EvRel MR ev₁ ev₂) :
    ∀ (es : List Exp) (s₁ : St ε₁) (s₂ : St ε₂) (acc : List CST),
      s₁.pos = s₂.pos → MR s₁ s₂ →
      SimR MR (seqStep ev₁ es s₁ acc) (seqStep ev₂ es s₂ acc) := by
  intro es
  induction es with
  | nil =>
    intro s₁ s₂ acc hp hMRs v t₁ h
    cases h
    exact ⟨s₂, rfl, hMRs, fun _ => hp.symm⟩
  | cons e es ih =>
    intro s₁ s₂ acc hp hMRs v t₁ h
    rw [seqStep_cons_eq] at h
    rw [seqStep_cons_eq]
    have hstep := hev e s₁ s₂ hp hMRs
    cases hr1 : ev₁ e s₁ with
    | ok v1 t₁' =>
      rw [hr1] at h
      obtain ⟨t₂', hr2, hMRs', hposc⟩ := hstep v1 t₁' hr1
      rw [hr2]
      cases v1 with
      | none =>
        cases h
        exact ⟨t₂', rfl, hMRs', fun hne => absurd rfl hne⟩
      | some c =>
        exact ih t₁' t₂' _ (hposc (fun hh => Option.noConfusion hh)).symm hMRs' v t₁ h
    | err => rw [hr1] at h; cases h
    | timeout => rw [hr1] at h; cases h

theorem repStep_sim {MR : St ε₁ → St ε₂ → Prop} (hMR : PosFree MR)
    {ev₁ : Exp → St ε₁ → Outcome (St ε₁)} {ev₂ : Exp → St ε₂ → Outcome (St ε₂)}
    (hev : EvRel MR ev₁ ev₂) :
    ∀ (k₁ : Nat) (k₂ : Nat), k₁ ≤ k₂ →
      ∀ (e : Exp) (s₁ : St ε₁) (s₂ : St ε₂) (acc : List CST),
        s₁.pos = s₂.pos → MR s₁ s₂ →
        SimR MR (repStep ev₁ k₁ e s₁ acc) (repStep ev₂ k₂ e s₂ acc) := by
  intro k₁
  induction k₁ with
  | zero => intro k₂ hk e s₁ s₂ acc hp hMRs v t₁ h; cases h
  | succ k₁ ih =>
    intro k₂ hk e s₁ s₂ acc hp hMRs v t₁ h
    obtain ⟨k₂', rfl⟩ : ∃ k₂', k₂ = k₂' + 1 := ⟨k₂ - 1, by omega⟩
    rw [repStep_succ_eq] at h
    rw [repStep_succ_eq]
    have hstep := hev e s₁ s₂ hp hMRs
    cases hr1 : ev₁ e s₁ with
    | ok v1 t₁' =>
      rw [hr1] at h
      obtain ⟨t₂', hr2, hMRs', hposc⟩ := hstep v1 t₁' hr1
      rw [hr2]
      cases v1 with
      | none =>
        cases h
        exact ⟨{ t₂' with pos := s₂.pos }, rfl, hMR _ _ _ _ hMRs',
          fun _ => hp.symm⟩
      | some c =>
        exact ih k₂' (by omega) e t₁' t₂' _
          (hposc (fun hh => Option.noConfusion hh)).symm hMRs' v t₁ h
    | err => rw [hr1] at h; cases h
    | timeout => rw [hr1] at h; cases h

theorem setMemo_hit (m : Int → String → Option ε) (p : Int) (nm : String)
    (e : ε) : setMemo m p nm e p nm = some e := by
  simp [setMemo]

theorem setMemo_miss (m : Int → String → Option ε) (p : Int) (nm : String)
    (e : ε) {q : Int} {nm' : String} (h : ¬(q = p ∧ nm' = nm)) :
    setMemo m p nm e q nm' = m q nm' := by
  simp only [setMemo, if_neg h]

theorem delMemo_miss (m : Int → String → Option ε) (p : Int) (nm : String)
    {q : Int} {nm' : String} (h : ¬(q = p ∧ nm' = nm)) :
    delMemo m p nm q nm' = m q nm' := by
  simp only [delMemo, if_neg h]

theorem evalNoMemo_mono_step (g : Grammar) :
    ∀ m, EvRel MReq (evalNoMemo g m) (evalNoMemo g (m + 1)) := by
  intro m
  induction m with
  | zero => intro e s₁ s₂ hp hm v t₁ h; cases h
  | succ m ih =>
    intro e s₁ s₂ hp hm
    cases e with
    | terminal cs =>
      exact terminal_sim (fun _ _ _ _ h => h) cs s₁ s₂ hp hm.1 hm
    | choice es =>
      show SimR MReq (choiceStep (evalNoMemo g m) es s₁.pos s₁)
        (choiceStep (evalNoMemo g (m + 1)) es s₂.pos s₂)
      rw [hp]
      exact choiceStep_sim (fun _ _ _ _ h => h) ih es s₂.pos s₁ s₂ hm
    | sequence es => exact seqStep_sim ih es s₁ s₂ [] hp hm
    | not e1 =>
      show SimR MReq (notEval s₁.pos (evalNoMemo g m e1 s₁))
        (notEval s₂.pos (evalNoMemo g (m + 1) e1 s₂))
      exact not_sim (fun _ _ _ _ h => h) (ih e1 s₁ s₂ hp hm) hp
    | repetition e1 =>
      exact repStep_sim (fun _ _ _ _ h => h) ih (m + 1) (m + 2) (by omega)
        e1 s₁ s₂ [] hp hm
    | ruleApplication nm =>
      intro v t₁ h
      change (match List.lookup nm g with
              | none => Outcome.err
              | some body => evalNoMemo g m body s₁) = Outcome.ok v t₁ at h
      cases hl : List.lookup nm g with
      | none => rw [hl] at h; cases h
      | some body =>
        rw [hl] at h
        obtain ⟨t₂, h₂, hMRs, hposc⟩ := ih body s₁ s₂ hp hm v t₁ h
        refine ⟨t₂, ?_, hMRs, hposc⟩
        show evalNoMemo g (m + 1 + 1) (.ruleApplication nm) s₂ = Outcome.ok v t₂
        change (match List.lookup nm g with
                | none => Outcome.err
                | some body => evalNoMemo g (m + 1) body s₂) = Outcome.ok v t₂
        rw [hl]
        exact h₂

theorem evalNoMemo_mono (g : Grammar) {n m : Nat} (hnm : n ≤ m) :
    ∀ (e : Exp) (s : St Unit) (v : Option CST) (t : St Unit),
      evalNoMemo g n e s = .ok v t →
      ∃ t', evalNoMemo g m e s = .ok v t' ∧ MReq t t' ∧
        (v ≠ none → t'.pos = t.pos) := by
  induction m, hnm using Nat.le_induction with
  | base => intro e s v t h; exact ⟨t, h, ⟨rfl, rfl⟩, fun _ => rfl⟩
  | succ m hnm ih =>
    intro e s v t h
    obtain ⟨t', h', hMRs, hposc⟩ := ih e s v t h
    obtain ⟨t'', h'', hMRs', hposc'⟩ :=
      evalNoMemo_mono_step g m e s s rfl ⟨rfl, rfl⟩ v t' h'
    exact ⟨t'', h'', ⟨hMRs.1.trans hMRs'.1, hMRs.2.trans hMRs'.2⟩,
      fun hne => (hposc' hne).trans (hposc hne)⟩

theorem evalNoMemo_det (g : Grammar) {k₁ k₂ : Nat} {e : Exp} {s : St Unit}
    {v₁ v₂ : Option CST} {t₁ t₂ : St Unit}
    (h₁ : evalNoMemo g k₁ e s = .ok v₁ t₁)
    (h₂ : evalNoMemo g k₂ e s = .ok v₂ t₂) :
    v₁ = v₂ ∧ (v₁ ≠ none → t₁.pos = t₂.pos) := by
  obtain ⟨t₁', h₁', -, hp₁⟩ := evalNoMemo_mono g (le_max_left k₁ k₂) e s v₁ t₁ h₁
  obtain ⟨t₂', h₂', -, hp₂⟩ := evalNoMemo_mono g (le_max_right k₁ k₂) e s v₂ t₂ h₂
  rw [h₁'] at h₂'
  cases h₂'
  exact ⟨rfl, fun hne => ((hp₁ hne).symm.trans (hp₂ hne))⟩

theorem simChkNM (g : Grammar) :
    ∀ n, EvRel MRNM (evalChk g n) (evalNoMemo g n) := by
  intro n
  induction n with
  | zero => intro e s₁ s₂ hp hm v t₁ h; cases h
  | succ n ih =>
    intro e s₁ s₂ hp hm
    cases e with
    | terminal cs =>
      exact terminal_sim (fun _ _ _ _ h => h) cs s₁ s₂ hp hm hm
    | choice es =>
      show SimR MRNM (choiceStep (evalChk g n) es s₁.pos s₁)
        (choiceStep (evalNoMemo g n) es s₂.pos s₂)
      rw [hp]
      exact choiceStep_sim (fun _ _ _ _ h => h) ih es s₂.pos s₁ s₂ hm
    | sequence es => exact seqStep_sim ih es s₁ s₂ [] hp hm
    | not e1 =>
      show SimR MRNM (notEval s₁.pos (evalChk g n e1 s₁))
        (notEval s₂.pos (evalNoMemo g n e1 s₂))
      exact not_sim (fun _ _ _ _ h => h) (ih e1 s₁ s₂ hp hm) hp
    | repetition e1 =>
      exact repStep_sim (fun _ _ _ _ h => h) ih (n + 1) (n + 1) le_rfl
        e1 s₁ s₂ [] hp hm
    | ruleApplication nm =>
      intro v t₁ h
      have h' : ruleStepChk g (evalChk g n) nm s₁ = .ok v t₁ := h
      rw [ruleStepChk] at h'
      cases hmk : s₁.memo s₁.pos nm with
      | some u => rw [hmk] at h'; cases h'
      | none =>
        rw [hmk] at h'
        cases hl : List.lookup nm g with
        | none => rw [hl] at h'; cases h'
        | some body =>
          rw [hl] at h'
          change (match evalChk g n body
                    { s₁ with memo := setMemo s₁.memo s₁.pos nm () } with
                  | .ok cst t => Outcome.ok cst { t with memo := delMemo t.memo s₁.pos nm }
                  | r => r) = Outcome.ok v t₁ at h'
          cases hr : evalChk g n body
              { s₁ with memo := setMemo s₁.memo s₁.pos nm () } with
          | ok cst t =>
            rw [hr] at h'
            cases h'
            obtain ⟨t₂, h₂, hMRs, hposc⟩ := ih body
              { s₁ with memo := setMemo s₁.memo s₁.pos nm () } s₂ hp hm v t hr
            refine ⟨t₂, ?_, hMRs, fun hne => hposc hne⟩
            show evalNoMemo g (n + 1) (.ruleApplication nm) s₂ = Outcome.ok v t₂
            change (match List.lookup nm g with
                    | none => Outcome.err
                    | some body => evalNoMemo g n body s₂) = Outcome.ok v t₂
            rw [hl]
            exact h₂
          | err => rw [hr] at h'; cases h'
          | timeout => rw [hr] at h'; cases h'

theorem ruleStepP_none {g : Grammar} {ev : Exp → StP → Outcome StP}
    {name : String} {s : StP} {body : Exp}
    (hent : s.memo s.pos name = none) (hl : List.lookup name g = some body) :
    ruleStepP g ev name s =
      match ev body s with
      | .ok cst s2 =>
        .ok cst { s2 with memo := setMemo s2.memo s.pos name (pentryOf cst s2.pos) }
      | r => r := by
  simp only [ruleStepP, hent, hl]

theorem simChkP (g : Grammar) :
    ∀ n, EvRel (MRP g) (evalChk g n) (evalP g n) := by
  intro n
  induction n with
  | zero => intro e s₁ s₂ hp hm v t₁ h; cases h
  | succ n ih =>
    intro e s₁ s₂ hp hm
    have hfree : PosFree (MRP g) := fun _ _ _ _ h => h
    cases e with
    | terminal cs => exact terminal_sim hfree cs s₁ s₂ hp hm.1 hm
    | choice es =>
      show SimR (MRP g) (choiceStep (evalChk g n) es s₁.pos s₁)
        (choiceStep (evalP g n) es s₂.pos s₂)
      rw [hp]
      exact choiceStep_sim hfree ih es s₂.pos s₁ s₂ hm
    | sequence es => exact seqStep_sim ih es s₁ s₂ [] hp hm
    | not e1 => exact not_sim hfree (ih e1 s₁ s₂ hp hm) hp
    | repetition e1 =>
      exact repStep_sim hfree ih (n + 1) (n + 1) le_rfl e1 s₁ s₂ [] hp hm
    | ruleApplication nm =>
      intro v t₁ h
      have hpres := evalChk_pres g (n + 1) _ _ _ _ h
      obtain ⟨t₀, h₀, -, hpos₀⟩ := simChkNM g (n + 1) (.ruleApplication nm) s₁
        (⟨s₁.input, s₁.pos, fun _ _ => none⟩ : St Unit) rfl rfl v t₁ h
      have hbare : (⟨s₁.input, s₁.pos, fun _ _ => none⟩ : St Unit) =
          (⟨s₂.input, s₂.pos, fun _ _ => none⟩ : St Unit) := by
        rw [hm.1, hp]
      rw [hbare] at h₀
      have h' : ruleStepChk g (evalChk g n) nm s₁ = .ok v t₁ := h
      rw [ruleStepChk] at h'
      cases hmk : s₁.memo s₁.pos nm with
      | some u => rw [hmk] at h'; cases h'
      | none =>
        rw [hmk] at h'
        cases hl : List.lookup nm g with
        | none => rw [hl] at h'; cases h'
        | some body =>
          rw [hl] at h'
          change (match evalChk g n body
                    { s₁ with memo := setMemo s₁.memo s₁.pos nm () } with
                  | .ok cst t => Outcome.ok cst { t with memo := delMemo t.memo s₁.pos nm }
                  | r => r) = Outcome.ok v t₁ at h'
          cases hr : evalChk g n body
              { s₁ with memo := setMemo s₁.memo s₁.pos nm () } with
          | ok cst t =>
            rw [hr] at h'
            cases h'
            cases hent : s₂.memo s₂.pos nm with
            | some entry =>
              cases entry with
              | succ c q =>
                have hc : NMCorrect g s₂.input s₂.pos nm (some c) q :=
                  hm.2 s₂.pos nm _ hent
                obtain ⟨k, t', ht', htq⟩ := hc
                obtain ⟨hv, hpos'⟩ := evalNoMemo_det g h₀ ht'
                subst hv
                refine ⟨{ s₂ with pos := q }, ?_, ⟨?_, ?_⟩, ?_⟩
                · show ruleStepP g (evalP g n) nm s₂ = Outcome.ok (some c) { s₂ with pos := q }
                  rw [ruleStepP, hent]
                · show t.input = s₂.input
                  exact (show t.input = s₁.input from hpres.1).trans hm.1
                · exact fun p nm' e he => hm.2 p nm' e he
                · intro hne
                  show q = t.pos
                  have h1 : t₀.pos = t.pos := hpos₀ hne
                  have h2 : t₀.pos = t'.pos := hpos' hne
                  rw [← htq, ← h2]
                  exact h1
              | fail =>
                have hc : NMCorrect g s₂.input s₂.pos nm none 0 :=
                  hm.2 s₂.pos nm _ hent
                obtain ⟨k, t', ht'⟩ := hc
                have hv : v = none := (evalNoMemo_det g h₀ ht').1
                subst hv
                refine ⟨s₂, ?_, ⟨?_, ?_⟩, ?_⟩
                · show ruleStepP g (evalP g n) nm s₂ = Outcome.ok none s₂
                  rw [ruleStepP, hent]
                · exact (show t.input = s₁.input from hpres.1).trans hm.1
                · exact fun p nm' e he => hm.2 p nm' e he
                · intro hne; exact absurd rfl hne
            | none =>
              have hmr' : MRP g { s₁ with memo := setMemo s₁.memo s₁.pos nm () } s₂ := hm
              obtain ⟨t₂, h₂, hrel₂, hposc₂⟩ := ih body
                { s₁ with memo := setMemo s₁.memo s₁.pos nm () } s₂ hp hmr' v t hr
              have ht2i : t₂.input = s₂.input := (evalP_inv n body s₂ v t₂ h₂).1
              refine ⟨{ t₂ with
                  memo := setMemo t₂.memo s₂.pos nm (pentryOf v t₂.pos) }, ?_,
                ⟨?_, ?_⟩, ?_⟩
              · show ruleStepP g (evalP g n) nm s₂ = _
                rw [ruleStepP_none hent hl, h₂]
              · show t.input = t₂.input
                rw [show t.input = s₁.input from hpres.1, hm.1, ← ht2i]
              · intro p nm' e he
                by_cases hk : p = s₂.pos ∧ nm' = nm
                · obtain ⟨rfl, rfl⟩ := hk
                  change setMemo t₂.memo s₂.pos nm' (pentryOf v t₂.pos) s₂.pos nm' =
                    some e at he
                  rw [setMemo_hit] at he
                  cases he
                  cases v with
                  | some c =>
                    show NMCorrect g t₂.input s₂.pos nm' (some c) t₂.pos
                    refine ⟨n + 1, t₀, ?_, ?_⟩
                    · rw [ht2i]
                      exact h₀
                    · have h1 : t₀.pos = t.pos := hpos₀ (fun hh => Option.noConfusion hh)
                      have h2 : t₂.pos = t.pos := hposc₂ (fun hh => Option.noConfusion hh)
                      rw [h2]
                      exact h1
                  | none =>
                    show NMCorrect g t₂.input s₂.pos nm' none 0
                    refine ⟨n + 1, t₀, ?_⟩
                    rw [ht2i]
                    exact h₀
                · change setMemo t₂.memo s₂.pos nm (pentryOf v t₂.pos) p nm' =
                    some e at he
                  rw [setMemo_miss _ _ _ _ hk] at he
                  exact hrel₂.2 p nm' e he
              · intro hne
                show t₂.pos = t.pos
                exact hposc₂ hne
          | err => rw [hr] at h'; cases h'
          | timeout => rw [hr] at h'; cases h'

theorem ruleStepL_none {g : Grammar} {ev : Exp → StL → Outcome StL} {k : Nat}
    {name : String} {s : StL} {body : Exp}
    (hent : s.memo s.pos name = none) (hl : List.lookup name g = some body) :
    ruleStepL g ev k name s =
      match ev body { s with memo := setMemo s.memo s.pos name lrFailer } with
      | .ok cst s2 =>
        if usedFlag s2.memo s.pos name = true then
          growStep ev k name body s.pos cst
            { s2 with memo := setMemo s2.memo s.pos name ⟨cst, s2.pos, false, false⟩ }
        else
          .ok cst
            { s2 with memo := setMemo s2.memo s.pos name ⟨cst, s2.pos, false, false⟩ }
      | r => r := by
  simp only [ruleStepL, hent, hl]

theorem simChkL (g : Grammar) :
    ∀ n, EvRel (MRL g) (evalChk g n) (evalL g n) := by
  intro n
  induction n with
  | zero => intro e s₁ s₂ hp hm v t₁ h; cases h
  | succ n ih =>
    intro e s₁ s₂ hp hm
    have hfree : PosFree (MRL g) := fun _ _ _ _ h => h
    cases e with
    | terminal cs => exact terminal_sim hfree cs s₁ s₂ hp hm.1 hm
    | choice es =>
      show SimR (MRL g) (choiceStep (evalChk g n) es s₁.pos s₁)
        (choiceStep (evalL g n) es s₂.pos s₂)
      rw [hp]
      exact choiceStep_sim hfree ih es s₂.pos s₁ s₂ hm
    | sequence es => exact seqStep_sim ih es s₁ s₂ [] hp hm
    | not e1 => exact not_sim hfree (ih e1 s₁ s₂ hp hm) hp
    | repetition e1 =>
      exact repStep_sim hfree ih (n + 1) (n + 1) le_rfl e1 s₁ s₂ [] hp hm
    | ruleApplication nm =>
      intro v t₁ h
      have hpres := evalChk_pres g (n + 1) _ _ _ _ h
      obtain ⟨t₀, h₀, -, hpos₀⟩ := simChkNM g (n + 1) (.ruleApplication nm) s₁
        (⟨s₁.input, s₁.pos, fun _ _ => none⟩ : St Unit) rfl rfl v t₁ h
      have hbare : (⟨s₁.input, s₁.pos, fun _ _ => none⟩ : St Unit) =
          (⟨s₂.input, s₂.pos, fun _ _ => none⟩ : St Unit) := by
        rw [hm.1, hp]
      rw [hbare] at h₀
      have h' : ruleStepChk g (evalChk g n) nm s₁ = .ok v t₁ := h
      rw [ruleStepChk] at h'
      cases hmk : s₁.memo s₁.pos nm with
      | some u => rw [hmk] at h'; cases h'
      | none =>
        rw [hmk] at h'
        cases hl : List.lookup nm g with
        | none => rw [hl] at h'; cases h'
        | some body =>
          rw [hl] at h'
          change (match evalChk g n body
                    { s₁ with memo := setMemo s₁.memo s₁.pos nm () } with
                  | .ok cst t => Outcome.ok cst { t with memo := delMemo t.memo s₁.pos nm }
                  | r => r) = Outcome.ok v t₁ at h'
          cases hr : evalChk g n body
              { s₁ with memo := setMemo s₁.memo s₁.pos nm () } with
          | ok cst t =>
            rw [hr] at h'
            cases h'
            cases hent : s₂.memo s₂.pos nm with
            | some entry =>
              by_cases hif : entry.isFailer = true
              · have hc := hm.2.1 s₂.pos nm entry hent hif
                have hmm : s₁.memo s₁.pos nm = some () := by
                  rw [hp]; exact hc.2
                rw [hmk] at hmm
                cases hmm
              · have hif' : entry.isFailer = false := by
                  revert hif; cases entry.isFailer <;> simp
                have hcor := hm.2.2.2 s₂.pos nm entry hent hif'
                have hMRout : MRL g
                    { t with memo := delMemo t.memo s₁.pos nm }
                    { s₂ with pos := entry.nextPos } := by
                  refine ⟨?_, ?_, ?_, ?_⟩
                  · show t.input = s₂.input
                    exact (show t.input = s₁.input from hpres.1).trans hm.1
                  · intro p nm2 e2 he2 hif2
                    have hfl := hm.2.1 p nm2 e2 he2 hif2
                    refine ⟨hfl.1, ?_⟩
                    show delMemo t.memo s₁.pos nm p nm2 = some ()
                    rw [show delMemo t.memo s₁.pos nm = s₁.memo from hpres.2]
                    exact hfl.2
                  · intro p nm2 hm2
                    have hm2' : s₁.memo p nm2 = some () := by
                      rw [← (show delMemo t.memo s₁.pos nm = s₁.memo from hpres.2)]
                      exact hm2
                    exact hm.2.2.1 p nm2 hm2'
                  · intro p nm2 e2 he2 hif2
                    exact hm.2.2.2 p nm2 e2 he2 hif2
                cases hcst : entry.cst with
                | some c =>
                  rw [hcst] at hcor
                  obtain ⟨k, t', ht', htq⟩ := hcor
                  obtain ⟨hv, hpos'⟩ := evalNoMemo_det g h₀ ht'
                  subst hv
                  refine ⟨{ s₂ with pos := entry.nextPos }, ?_, hMRout, ?_⟩
                  · show ruleStepL g (evalL g n) (n + 1) nm s₂ =
                      Outcome.ok (some c) { s₂ with pos := entry.nextPos }
                    rw [ruleStepL, hent]
                    simp [hif', hcst]
                  · intro hne
                    show entry.nextPos = t.pos
                    have h1 : t₀.pos = t.pos := hpos₀ hne
                    have h2 : t₀.pos = t'.pos := hpos' hne
                    rw [← htq, ← h2]
                    exact h1
                | none =>
                  rw [hcst] at hcor
                  obtain ⟨k, t', ht'⟩ := hcor
                  have hv : v = none := (evalNoMemo_det g h₀ ht').1
                  subst hv
                  refine ⟨{ s₂ with pos := entry.nextPos }, ?_, hMRout, ?_⟩
                  · show ruleStepL g (evalL g n) (n + 1) nm s₂ =
                      Outcome.ok none { s₂ with pos := entry.nextPos }
                    rw [ruleStepL, hent]
                    simp [hif', hcst]
                  · intro hne
                    exact absurd rfl hne
            | none =>
              have hmr' : MRL g { s₁ with memo := setMemo s₁.memo s₁.pos nm () }
                  { s₂ with memo := setMemo s₂.memo s₂.pos nm lrFailer } := by
                refine ⟨hm.1, ?_, ?_, ?_⟩
                · intro p nm2 e2 he2 hif2
                  change setMemo s₂.memo s₂.pos nm lrFailer p nm2 = some e2 at he2
                  by_cases hk : p = s₂.pos ∧ nm2 = nm
                  · rw [hk.1, hk.2, setMemo_hit] at he2
                    cases he2
                    refine ⟨rfl, ?_⟩
                    show setMemo s₁.memo s₁.pos nm () p nm2 = some ()
                    rw [hk.1, hk.2, ← hp]
                    exact setMemo_hit _ _ _ _
                  · rw [setMemo_miss _ _ _ _ hk] at he2
                    have hfl := hm.2.1 p nm2 e2 he2 hif2
                    refine ⟨hfl.1, ?_⟩
                    show setMemo s₁.memo s₁.pos nm () p nm2 = some ()
                    have hk' : ¬(p = s₁.pos ∧ nm2 = nm) := by rw [hp]; exact hk
                    rw [setMemo_miss _ _ _ _ hk']
                    exact hfl.2
                · intro p nm2 hm2
                  change setMemo s₁.memo s₁.pos nm () p nm2 = some () at hm2
                  by_cases hk : p = s₁.pos ∧ nm2 = nm
                  · refine ⟨lrFailer, ?_, rfl⟩
                    show setMemo s₂.memo s₂.pos nm lrFailer p nm2 = some lrFailer
                    rw [hk.1, hk.2, hp]
                    exact setMemo_hit _ _ _ _
                  · rw [setMemo_miss _ _ _ _ hk] at hm2
                    obtain ⟨e2, he2, hif2⟩ := hm.2.2.1 p nm2 hm2
                    refine ⟨e2, ?_, hif2⟩
                    show setMemo s₂.memo s₂.pos nm lrFailer p nm2 = some e2
                    have hk' : ¬(p = s₂.pos ∧ nm2 = nm) := by rw [← hp]; exact hk
                    rw [setMemo_miss _ _ _ _ hk']
                    exact he2
                · intro p nm2 e2 he2 hif2
                  change setMemo s₂.memo s₂.pos nm lrFailer p nm2 = some e2 at he2
                  by_cases hk : p = s₂.pos ∧ nm2 = nm
                  · rw [hk.1, hk.2, setMemo_hit] at he2
                    cases he2
                    exact absurd hif2 (by decide)
                  · rw [setMemo_miss _ _ _ _ hk] at he2
                    exact hm.2.2.2 p nm2 e2 he2 hif2
              obtain ⟨t₂, h₂, hrel₂, hposc₂⟩ := ih body
                { s₁ with memo := setMemo s₁.memo s₁.pos nm () }
                { s₂ with memo := setMemo s₂.memo s₂.pos nm lrFailer } hp hmr' v t hr
              have htm : t.memo = setMemo s₁.memo s₁.pos nm () :=
                (evalChk_pres g n _ _ _ _ hr).2
              have hmarker : t.memo s₂.pos nm = some () := by
                rw [htm, ← hp]
                exact setMemo_hit _ _ _ _
              obtain ⟨e2, he2, hif2⟩ := hrel₂.2.2.1 s₂.pos nm hmarker
              have hused : e2.used = false := (hrel₂.2.1 s₂.pos nm e2 he2 hif2).1
              have huf : usedFlag t₂.memo s₂.pos nm = false := by
                simp [usedFlag, he2, hif2, hused]
              have ht2i : t₂.input = s₂.input :=
                (evalL_inv n body _ v t₂ h₂).1
              refine ⟨{ t₂ with
                  memo := setMemo t₂.memo s₂.pos nm ⟨v, t₂.pos, false, false⟩ }, ?_,
                ⟨?_, ?_, ?_, ?_⟩, ?_⟩
              · show ruleStepL g (evalL g n) (n + 1) nm s₂ = _
                rw [ruleStepL_none hent hl, h₂]
                change (if usedFlag t₂.memo s₂.pos nm = true then
                          growStep (evalL g n) (n + 1) nm body s₂.pos v
                            { t₂ with memo := setMemo t₂.memo s₂.pos nm ⟨v, t₂.pos, false, false⟩ }
                        else
                          Outcome.ok v
                            { t₂ with memo := setMemo t₂.memo s₂.pos nm ⟨v, t₂.pos, false, false⟩ }) = _
                rw [huf]
                rw [if_neg (by decide : ¬(false = true))]
              · show t.input = t₂.input
                rw [show t.input = s₁.input from hpres.1, hm.1, ← ht2i]
              · intro p nm2 e3 he3 hif3
                change setMemo t₂.memo s₂.pos nm ⟨v, t₂.pos, false, false⟩ p nm2 =
                  some e3 at he3
                by_cases hk : p = s₂.pos ∧ nm2 = nm
                · rw [hk.1, hk.2, setMemo_hit] at he3
                  cases he3
                  exact absurd hif3 (show ¬(false = true) by decide)
                · rw [setMemo_miss _ _ _ _ hk] at he3
                  have hfl := hrel₂.2.1 p nm2 e3 he3 hif3
                  refine ⟨hfl.1, ?_⟩
                  show delMemo t.memo s₁.pos nm p nm2 = some ()
                  have hk' : ¬(p = s₁.pos ∧ nm2 = nm) := by rw [hp]; exact hk
                  rw [delMemo_miss _ _ _ hk']
                  exact hfl.2
              · intro p nm2 hm2
                change delMemo t.memo s₁.pos nm p nm2 = some () at hm2
                have hk : ¬(p = s₁.pos ∧ nm2 = nm) := by
                  intro hkk
                  have hnone : delMemo t.memo s₁.pos nm p nm2 = none := by
                    simp only [delMemo, if_pos hkk]
                  rw [hnone] at hm2
                  cases hm2
                rw [delMemo_miss _ _ _ hk] at hm2
                obtain ⟨e3, he3, hif3⟩ := hrel₂.2.2.1 p nm2 hm2
                refine ⟨e3, ?_, hif3⟩
                show setMemo t₂.memo s₂.pos nm ⟨v, t₂.pos, false, false⟩ p nm2 = some e3
                have hk2 : ¬(p = s₂.pos ∧ nm2 = nm) := by rw [← hp]; exact hk
                rw [setMemo_miss _ _ _ _ hk2]
                exact he3
              · intro p nm2 e3 he3 hif3
                change setMemo t₂.memo s₂.pos nm ⟨v, t₂.pos, false, false⟩ p nm2 =
                  some e3 at he3
                by_cases hk : p = s₂.pos ∧ nm2 = nm
                · rw [hk.1, hk.2, setMemo_hit] at he3
                  cases he3
                  cases v with
                  | some c =>
                    show NMCorrect g t₂.input p nm2 (some c) t₂.pos
                    refine ⟨n + 1, t₀, ?_, ?_⟩
                    · rw [ht2i, hk.1, hk.2]
                      exact h₀
                    · have h1 : t₀.pos = t.pos := hpos₀ (fun hh => Option.noConfusion hh)
                      have h2 : t₂.pos = t.pos := hposc₂ (fun hh => Option.noConfusion hh)
                      rw [h2]
                      exact h1
                  | none =>
                    show NMCorrect g t₂.input p nm2 none t₂.pos
                    refine ⟨n + 1, t₀, ?_⟩
                    rw [ht2i, hk.1, hk.2]
                    exact h₀
                · rw [setMemo_miss _ _ _ _ hk] at he3
                  exact hrel₂.2.2.2 p nm2 e3 he3 hif3
              · intro hne
                show t₂.pos = t.pos
                exact hposc₂ hne
          | err => rw [hr] at h'; cases h'
          | timeout => rw [hr] at h'; cases h'

theorem matchNoMemo_eq (g : Grammar) (n : Nat) (input : List Char) :
    matchNoMemo g n input =
      match evalNoMemo g n (.ruleApplication "start") (initSt input) with
      | .ok cst s => .ok (if s.pos = (input.length : Int) then cst else none) ()
      | .err => .err
      | .timeout => .timeout := rfl

/-- C3: memoization transparency.  "Non-left-recursive" is formalized
semantically by the instrumented scratch evaluator `evalChk`, which fails hard
exactly when a rule is re-entered at the same input position before its first
evaluation there completes (the definition of left recursion at run time); a
grammar/input pair is non-left-recursive when the checked scratch run returns.
Under that hypothesis the scratch evaluator (no memo table, `matchNoMemo`),
the plain packrat matcher (`matchP`) and the left-recursion-capable matcher
(`matchL`) all return the same result at the same fuel — the same
success/failure verdict and structurally identical CST. -/
theorem claim3_memoization_transparent :
    ∀ (g : Grammar) (n : Nat) (input : List Char) (v : Option CST) (s' : St Unit),
      evalChk g n (.ruleApplication "start") (initSt input) = .ok v s' →
      matchNoMemo g n input = matchP g n input ∧
      matchP g n input = matchL g n input ∧
      matchNoMemo g n input =
        .ok (if s'.pos = (input.length : Int) then v else none) () := by
  intro g n input v s' h
  obtain ⟨t₀, h₀, -, hpos₀⟩ := simChkNM g n (.ruleApplication "start")
    (initSt input) (initSt input) rfl rfl v s' h
  have hmP : MRP g (initSt input) (initSt input : StP) := by
    refine ⟨rfl, ?_⟩
    intro p nm e he
    cases he
  obtain ⟨tP, hP, -, hposP⟩ := simChkP g n (.ruleApplication "start")
    (initSt input) (initSt input) rfl hmP v s' h
  have hmL : MRL g (initSt input) (initSt input : StL) := by
    refine ⟨rfl, ?_, ?_, ?_⟩
    · intro p nm e he hif
      cases he
    · intro p nm hmm
      cases hmm
    · intro p nm e he hif
      cases he
  obtain ⟨tL, hL, -, hposL⟩ := simChkL g n (.ruleApplication "start")
    (initSt input) (initSt input) rfl hmL v s' h
  have eNM : matchNoMemo g n input =
      .ok (if t₀.pos = (input.length : Int) then v else none) () := by
    rw [matchNoMemo_eq, h₀]
  have eP : matchP g n input =
      .ok (if tP.pos = (input.length : Int) then v else none) () := by
    rw [matchP_eq, hP]
  have eL : matchL g n input =
      .ok (if tL.pos = (input.length : Int) then v else none) () := by
    rw [matchL_eq, hL]
  cases v with
  | none =>
    have r1 : matchNoMemo g n input = .ok none () := by rw [eNM, ite_self]
    have r2 : matchP g n input = .ok none () := by rw [eP, ite_self]
    have r3 : matchL g n input = .ok none () := by rw [eL, ite_self]
    refine ⟨r1.trans r2.symm, r2.trans r3.symm, ?_⟩
    rw [r1, ite_self]
  | some c =>
    have hne : (some c : Option CST) ≠ none := fun hh => Option.noConfusion hh
    have p0 : t₀.pos = s'.pos := hpos₀ hne
    have pP : tP.pos = s'.pos := hposP hne
    have pL : tL.pos = s'.pos := hposL hne
    rw [eNM, eP, eL, p0, pP, pL]
    exact ⟨rfl, rfl, rfl⟩

/-- Witness for C3: the right-recursive grammar `a = "a" a | "a"` on input
`"aaa"` is non-left-recursive (the checked scratch run returns a full parse),
so the scratch run, the plain packrat matcher and the left-recursion-capable
matcher agree, all three producing the same CST. -/
theorem claim3_witness :
    matchNoMemo gA 20 ['a', 'a', 'a'] = matchP gA 20 ['a', 'a', 'a'] ∧
    matchP gA 20 ['a', 'a', 'a'] = matchL gA 20 ['a', 'a', 'a'] ∧
    matchNoMemo gA 20 ['a', 'a', 'a'] =
      .ok (some (.list [.str ['a'], .list [.str ['a'], .str ['a']]])) () := by
  have h := claim3_memoization_transparent gA 20 ['a', 'a', 'a']
    (some (.list [.str ['a'], .list [.str ['a'], .str ['a']]]))
    ((evalChk gA 20 (.ruleApplication "start") (initSt ['a', 'a', 'a'])).stOr
      (initSt ['a', 'a', 'a'])) rfl
  exact ⟨h.1, h.2.1, h.2.2⟩

end Packrat
